import Mathlib

/-!
Shallow embedding of the Expressions repository (src/main.cpp): a lexical
scanner with one-token lookahead, a recursive-descent parser for `+ - *`
and parentheses, and a tree evaluator over 64-bit unsigned arithmetic.

Machine characters are modelled as Lean `Char`s classified through their
code points (the program only ever meets ASCII); `std::uint64_t`
arithmetic is modelled as `Nat` arithmetic reduced modulo `2 ^ 64`;
nullable `Tree *` pointers are modelled by the `Tree.null` constructor.
Diagnostics printed with `printf` are modelled as values of type `Diag`
collected in output lists.  The C++ global scanner is modelled by explicit
state passing of a `Scanner` value.
-/

namespace Expressions

/-- Cardinality of `std::uint64_t`, the evaluation domain: `2 ^ 64`. -/
def TWO64 : Nat := 18446744073709551616

theorem TWO64_eq : TWO64 = 2 ^ 64 := by decide

/-- `enum TokenType` from main.cpp lines 5-13. -/
inductive TokenType where
  | null
  | integer
  | add
  | minus
  | mul
  | lparen
  | rparen
deriving DecidableEq, Repr

/-- `struct Token` from main.cpp lines 15-18.  A default-constructed
`Token` has an empty `name`. -/
structure Token where
  name : String
  type : TokenType
deriving DecidableEq, Repr

/-- The diagnostics the program prints, in source order of the printf
calls that emit them. -/
inductive Diag where
  /-- "Bad lexical analysis stream (no such printable character)", line 74. -/
  | badStream
  /-- "skipping trailing characters for integer", line 93. -/
  | skipTrailing
  /-- "Unexpected lexical analysis character %c", line 123. -/
  | unexpectedChar (c : Char)
  /-- "Expected right parantheses match", line 241. -/
  | expectedRParen
  /-- "Syntax error in %s", line 249. -/
  | synError (name : String)
deriving DecidableEq, Repr

/-- `beginsWithName` (line 22): letters and underscore. -/
def beginsWithName (c : Char) : Bool :=
  (97 ≤ c.toNat && c.toNat ≤ 122) || (65 ≤ c.toNat && c.toNat ≤ 90) || c.toNat = 95

/-- `beginsWithDigit` (line 26): decimal digits. -/
def beginsWithDigit (c : Char) : Bool :=
  48 ≤ c.toNat && c.toNat ≤ 57

/-- `isIdentifier` (line 30). -/
def isIdentifier (c : Char) : Bool :=
  beginsWithName c || beginsWithDigit c

/-- `std::isprint` in the C locale: codes 32..126. -/
def isprintC (c : Char) : Bool :=
  32 ≤ c.toNat && c.toNat ≤ 126

/-- `std::isspace` in the C locale: space and codes 9..13
(tab, newline, vertical tab, form feed, carriage return). -/
def isspaceC (c : Char) : Bool :=
  c.toNat = 32 || (9 ≤ c.toNat && c.toNat ≤ 13)

/-- The "trailing garbage after an integer" class scanned at lines 92-98:
identifier characters and the dot. -/
def isGarbage (c : Char) : Bool :=
  isIdentifier c || c.toNat = 46

/-- `struct Scanner` state (lines 34-45): the buffer and the two cursor
indices.  `currentCharacterIndex` is the committed cursor,
`nextCharacterIndex` the position recorded by the last successful peek. -/
structure Scanner where
  buffer : List Char
  currentCharacterIndex : Nat
  nextCharacterIndex : Nat
deriving DecidableEq, Repr

/-- `Scanner::getCharacter` (lines 47-51): the character at the committed
cursor, or code 0 at or past the end of the buffer. -/
def getCharacter (s : Scanner) : Char :=
  if h : s.currentCharacterIndex < s.buffer.length then
    s.buffer.get ⟨s.currentCharacterIndex, h⟩
  else
    Char.ofNat 0

/-- `Scanner::setBuffer` (lines 57-60): replaces the buffer and resets the
committed cursor; `nextCharacterIndex` is not touched (the global scanner
object zero-initializes it before first use). -/
def setBuffer (s : Scanner) (buf : List Char) : Scanner :=
  { s with buffer := buf, currentCharacterIndex := 0 }

/-- The head of a character suffix as `getCharacter` sees it: the first
character, or code 0 when the suffix is empty. -/
def headCh (l : List Char) : Char :=
  l.headD (Char.ofNat 0)

/-- The token-classification core of `Scanner::peekToken` (lines 84-126),
applied to the character suffix that remains after the whitespace skip.
Returns the token, the number of characters this classification consumes,
and the diagnostics it prints.  Reading characters one by one while
incrementing the cursor is modelled with `takeWhile` over the suffix;
`getCharacter` past the end yields code 0, which none of the character
classes accept, so both renderings stop at the same place. -/
def scanAfterWs (l : List Char) : Token × Nat × List Diag :=
  let c := headCh l
  if beginsWithDigit c then
    -- lines 84-98: collect the maximal digit run into the token text
    let ds := l.takeWhile beginsWithDigit
    let rest := l.drop ds.length
    if isGarbage (headCh rest) then
      -- lines 92-98: skip the garbage suffix, keeping only the digits
      let g := rest.takeWhile isGarbage
      (⟨String.mk ds, .integer⟩, ds.length + g.length, [.skipTrailing])
    else
      (⟨String.mk ds, .integer⟩, ds.length, [])
  else
    -- lines 99-126: single-character dispatch; `t.name = c` first
    if c = '+' then (⟨String.mk [c], .add⟩, 1, [])
    else if c = '-' then (⟨String.mk [c], .minus⟩, 1, [])
    else if c = '*' then (⟨String.mk [c], .mul⟩, 1, [])
    else if c = '(' then (⟨String.mk [c], .lparen⟩, 1, [])
    else if c = ')' then (⟨String.mk [c], .rparen⟩, 1, [])
    else (⟨String.mk [c], .null⟩, 0, [.unexpectedChar c])

/-- `Scanner::peekToken` (lines 62-131) as a function of the buffer and
the committed cursor.  Returns the token, `some` of the position that
line 128 records into `nextCharacterIndex` (or `none` on the two early
returns at lines 68-77, which leave `nextCharacterIndex` untouched), and
the printed diagnostics. -/
def peekCore (buf : List Char) (pos : Nat) : Token × Option Nat × List Diag :=
  let su := buf.drop pos
  let c := headCh su
  if c.toNat = 0 then
    -- lines 68-71: end of input (or an embedded NUL character)
    (⟨"", .null⟩, none, [])
  else if ¬ isprintC c then
    -- lines 73-77: printability is checked before any whitespace skip
    (⟨"", .null⟩, none, [.badStream])
  else
    -- lines 79-82: skip whitespace
    let w := (su.takeWhile isspaceC).length
    let (t, k, ds) := scanAfterWs (su.drop w)
    (t, some (pos + w + k), ds)

/-- `Scanner::peekToken` as a state transformer: the committed cursor is
saved at line 66 and restored at line 129, so only `nextCharacterIndex`
can change. -/
def peekToken (s : Scanner) : Token × Scanner × List Diag :=
  match peekCore s.buffer s.currentCharacterIndex with
  | (t, none, ds) => (t, s, ds)
  | (t, some nx, ds) => (t, { s with nextCharacterIndex := nx }, ds)

/-- `Scanner::nextToken` (lines 133-135): commit the cursor recorded by
the last peek. -/
def nextToken (s : Scanner) : Scanner :=
  { s with currentCharacterIndex := s.nextCharacterIndex }

/-- The AST (lines 137-185).  A `Tree *` pointer that is `nullptr` is
modelled by the `null` constructor, so every parser result is a `Tree`.
Binary and unary nodes store the operator's token type as the
`create*ExpressionTree` helpers do. -/
inductive Tree where
  | null
  | literal (token : Token)
  | unary (operatorType : TokenType) (child : Tree)
  | binary (operatorType : TokenType) (left : Tree) (right : Tree)
deriving DecidableEq, Repr

/-- `matchToken` (line 189). -/
def matchToken (t : Token) (type : TokenType) : Bool :=
  t.type = type

/-- `matchTerm` (line 193): additive operators. -/
def matchTerm (t : Token) : Bool :=
  t.type = TokenType.add || t.type = TokenType.minus

/-- `matchFactor` (line 197): the multiplicative operator. -/
def matchFactor (t : Token) : Bool :=
  t.type = TokenType.mul

mutual

/-- `parsePrimary` (lines 229-251).  All parser functions take the scanner
state, return the (possibly null) tree, the final scanner state and the
diagnostics printed.  The extra fuel argument bounds the recursion depth;
every recursive call spends one unit, and `parseExpressionTop` below
supplies more than any input can consume. -/
def parsePrimary : Nat → Scanner → Tree × Scanner × List Diag
  | 0, s => (.null, s, [])
  | fuel + 1, s =>
    match peekToken s with
    | (t, s1, d1) =>
      if matchToken t .integer then
        (.literal t, nextToken s1, d1)
      else if matchToken t .lparen then
        match parseExpression fuel (nextToken s1) with
        | (tree, s2, d2) =>
          match peekToken s2 with
          | (t2, s3, d3) =>
            if t2.type ≠ TokenType.rparen then
              -- line 241-243: report, destroy the subtree, return null
              (.null, s3, d1 ++ d2 ++ d3 ++ [.expectedRParen])
            else
              (tree, nextToken s3, d1 ++ d2 ++ d3)
      else
        (.null, s1, d1 ++ [.synError t.name])

/-- `parseMultiplicativeExpression` (lines 253-266). -/
def parseMultiplicativeExpression : Nat → Scanner → Tree × Scanner × List Diag
  | 0, s => (.null, s, [])
  | fuel + 1, s =>
    match parsePrimary fuel s with
    | (a, s1, d1) =>
      match peekToken s1 with
      | (tok, s2, d2) =>
        if matchFactor tok then
          match parsePrimary fuel (nextToken s2) with
          | (b, s3, d3) =>
            match peekToken s3 with
            | (tok2, s4, d4) =>
              if matchFactor tok2 then
                match parseMultiplicativeExpression fuel (nextToken s4) with
                | (c, s5, d5) =>
                  (.binary tok2.type (.binary tok.type a b) c, s5,
                    d1 ++ d2 ++ d3 ++ d4 ++ d5)
              else
                (.binary tok.type a b, s4, d1 ++ d2 ++ d3 ++ d4)
        else
          (a, s2, d1 ++ d2)

/-- `parseAdditiveExpression` (lines 268-282).  Note the quirk: the third
and later operands of a same-precedence chain are parsed by a recursive
call at the same level, giving `(a op b) op (rest)` rather than standard
left associativity. -/
def parseAdditiveExpression : Nat → Scanner → Tree × Scanner × List Diag
  | 0, s => (.null, s, [])
  | fuel + 1, s =>
    match parseMultiplicativeExpression fuel s with
    | (a, s1, d1) =>
      match peekToken s1 with
      | (tok, s2, d2) =>
        if matchTerm tok then
          match parseMultiplicativeExpression fuel (nextToken s2) with
          | (b, s3, d3) =>
            match peekToken s3 with
            | (tok2, s4, d4) =>
              if matchTerm tok2 then
                match parseAdditiveExpression fuel (nextToken s4) with
                | (c, s5, d5) =>
                  (.binary tok2.type (.binary tok.type a b) c, s5,
                    d1 ++ d2 ++ d3 ++ d4 ++ d5)
              else
                (.binary tok.type a b, s4, d1 ++ d2 ++ d3 ++ d4)
        else
          (a, s2, d1 ++ d2)

/-- `parseExpression` (lines 284-286). -/
def parseExpression : Nat → Scanner → Tree × Scanner × List Diag
  | 0, s => (.null, s, [])
  | fuel + 1, s => parseAdditiveExpression fuel s

end

/-- A fresh scanner loaded with an input string, as `setBuffer` leaves the
zero-initialized global scanner. -/
def initScanner (input : String) : Scanner :=
  ⟨input.data, 0, 0⟩

/-- Fuel that over-approximates the recursion depth any input can force:
each committed token allows at most a bounded burst of nested calls. -/
def fuelFor (input : String) : Nat :=
  5 * input.length + 6

/-- The whole parse of one input string, as `testExpressions` performs it:
load the buffer, run `parseExpression`. -/
def runParse (input : String) : Tree × Scanner × List Diag :=
  parseExpression (fuelFor input) (initScanner input)

/-- The tree `parseExpression` returns for an input string. -/
def parseExpressionTop (input : String) : Tree :=
  (runParse input).1

/-- The diagnostics printed while parsing an input string. -/
def parseDiags (input : String) : List Diag :=
  (runParse input).2.2

/-- Model of `std::atoll` restricted to the strings the program feeds it:
the value of the maximal leading digit run, 0 when there is none.  Token
texts reaching the evaluator are pure digit runs produced by the scanner,
for which this agrees with the C library function as long as the value
fits in `long long`. -/
def atollNat (s : String) : Nat :=
  (s.data.takeWhile beginsWithDigit).foldl (fun acc c => acc * 10 + (c.toNat - 48)) 0

/-- `evaluateConstantExpressionTree` (lines 288-330).  `std::uint64_t`
values are Nats below `TWO64`; every arithmetic operation reduces modulo
`TWO64`, and unsigned subtraction `a - b` is `(a + (TWO64 - b)) % TWO64`.
A null tree evaluates to 0 (line 292); unknown binary operator tags leave
`result` at its initial 0 (lines 290, 309); unknown unary tags leave
`result` at the child's value (line 321). -/
def evaluateConstantExpressionTree : Tree → Nat
  | .null => 0
  | .literal t => atollNat t.name % TWO64
  | .binary op l r =>
    let a := evaluateConstantExpressionTree l
    let b := evaluateConstantExpressionTree r
    match op with
    | .add => (a + b) % TWO64
    | .minus => (a + (TWO64 - b)) % TWO64
    | .mul => (a * b) % TWO64
    | _ => 0
  | .unary op c =>
    let result := evaluateConstantExpressionTree c
    match op with
    | .minus => (TWO64 - result) % TWO64
    | _ => result

/-- The parse-then-evaluate pipeline of `testExpressions` (lines 343-353)
for one input. -/
def evalString (input : String) : Nat :=
  evaluateConstantExpressionTree (parseExpressionTop input)

/-- The `evaluations` test table (lines 337-341), with the expected values
the C++ compiler computes for the constant expressions. -/
def evaluations : List (String × Nat) :=
  [("4 + 3 * 8", 28), ("(4 + 3) * 8", 56), ("(4 + 3 * 8) + 8 * 8 + (4 * 4)", 108)]

/-! ## Helper lemmas about list scanning -/

theorem takeWhile_all_append {p : Char → Bool} (l r : List Char)
    (h1 : ∀ c ∈ l, p c = true) (h2 : p (headCh r) = false) :
    (l ++ r).takeWhile p = l := by
  induction l with
  | nil =>
    cases r with
    | nil => rfl
    | cons c t =>
      simp only [headCh, List.headD_cons] at h2
      simp [List.takeWhile_cons, h2]
  | cons c t ih =>
    have hc : p c = true := h1 c (by simp)
    simp only [List.cons_append, List.takeWhile_cons, hc, if_true]
    rw [ih fun d hd => h1 d (by simp [hd])]

theorem drop_chunk {buf : List Char} {pos : Nat} {a rest : List Char}
    (h : buf.drop pos = a ++ rest) : buf.drop (pos + a.length) = rest := by
  rw [← List.drop_drop, h, List.drop_left]

theorem drop_cons {buf : List Char} {pos : Nat} {c : Char} {rest : List Char}
    (h : buf.drop pos = c :: rest) : buf.drop (pos + 1) = rest :=
  drop_chunk (a := [c]) (by simpa using h)

/-! ## Character class facts -/

theorem digit_facts {c : Char} (h : beginsWithDigit c = true) :
    c.toNat ≠ 0 ∧ isprintC c = true ∧ isspaceC c = false ∧ isGarbage c = true := by
  simp only [beginsWithDigit, Bool.and_eq_true, decide_eq_true_eq] at h
  refine ⟨by omega, ?_, ?_, ?_⟩
  · simp only [isprintC, Bool.and_eq_true, decide_eq_true_eq]; omega
  · simp only [isspaceC, Bool.or_eq_false_iff, Bool.and_eq_false_iff,
      decide_eq_false_iff_not]; omega
  · simp only [isGarbage, isIdentifier, beginsWithDigit, Bool.or_eq_true,
      Bool.and_eq_true, decide_eq_true_eq]
    exact Or.inl (Or.inr ⟨by omega, by omega⟩)

theorem not_digit_of_not_garbage {c : Char} (h : isGarbage c = false) :
    beginsWithDigit c = false := by
  cases hb : beginsWithDigit c with
  | false => rfl
  | true => exact absurd h (by simp [(digit_facts hb).2.2.2])

/-! ## Scanner lemmas -/

/-- The pairs of recognized single-character tokens and their types
(lines 101-121). -/
def symTable : List (Char × TokenType) :=
  [('+', .add), ('-', .minus), ('*', .mul), ('(', .lparen), (')', .rparen)]

theorem peekCore_symbol {buf : List Char} {pos : Nat} {c : Char}
    {ty : TokenType} {rest : List Char} (h : (c, ty) ∈ symTable)
    (hdrop : buf.drop pos = c :: rest) :
    peekCore buf pos = (⟨String.mk [c], ty⟩, some (pos + 1), []) := by
  simp only [symTable, List.mem_cons, List.not_mem_nil, or_false,
    Prod.mk.injEq] at h
  unfold peekCore
  rw [hdrop]
  rcases h with ⟨rfl, rfl⟩ | ⟨rfl, rfl⟩ | ⟨rfl, rfl⟩ | ⟨rfl, rfl⟩ | ⟨rfl, rfl⟩ <;> rfl

theorem peekCore_end {buf : List Char} {pos : Nat}
    (hdrop : buf.drop pos = []) :
    peekCore buf pos = (⟨"", .null⟩, none, []) := by
  unfold peekCore
  rw [hdrop]
  simp [headCh]

theorem peekCore_digits {buf : List Char} {pos : Nat} {ds rest : List Char}
    (hne : ds ≠ []) (hds : ∀ c ∈ ds, beginsWithDigit c = true)
    (hrest : isGarbage (headCh rest) = false)
    (hdrop : buf.drop pos = ds ++ rest) :
    peekCore buf pos = (⟨String.mk ds, .integer⟩, some (pos + ds.length), []) := by
  obtain ⟨d, ds0, rfl⟩ : ∃ d ds0, ds = d :: ds0 := by
    cases ds with
    | nil => exact absurd rfl hne
    | cons d t => exact ⟨d, t, rfl⟩
  have hd := digit_facts (hds d (by simp))
  have hnotdig : beginsWithDigit (headCh rest) = false := not_digit_of_not_garbage hrest
  have htake : ((d :: ds0) ++ rest).takeWhile beginsWithDigit = d :: ds0 :=
    takeWhile_all_append _ _ hds hnotdig
  have hws : ((d :: ds0) ++ rest).takeWhile isspaceC = [] := by
    simp [List.takeWhile_cons, hd.2.2.1]
  unfold peekCore
  rw [hdrop]
  simp only [headCh, List.cons_append, List.headD_cons]
  rw [if_neg (by simpa using hd.1), if_neg (by simp [hd.2.1])]
  simp only [← List.cons_append, hws, List.length_nil, List.drop_zero]
  unfold scanAfterWs
  simp only [headCh, List.cons_append, List.headD_cons, hds d (by simp), if_true]
  rw [← List.cons_append, htake]
  simp only [List.drop_left]
  have hrest2 : isGarbage (rest.head?.getD (Char.ofNat 0)) = false := by
    cases rest <;> simpa [headCh] using hrest
  rw [if_neg (by simp [hrest2])]
  simp

theorem peekToken_symbol {buf : List Char} {pos nx : Nat} {c : Char}
    {ty : TokenType} {rest : List Char} (h : (c, ty) ∈ symTable)
    (hdrop : buf.drop pos = c :: rest) :
    peekToken ⟨buf, pos, nx⟩ = (⟨String.mk [c], ty⟩, ⟨buf, pos, pos + 1⟩, []) := by
  unfold peekToken
  rw [peekCore_symbol h hdrop]

theorem peekToken_end {buf : List Char} {pos nx : Nat}
    (hdrop : buf.drop pos = []) :
    peekToken ⟨buf, pos, nx⟩ = (⟨"", .null⟩, ⟨buf, pos, nx⟩, []) := by
  unfold peekToken
  rw [peekCore_end hdrop]

theorem peekToken_digits {buf : List Char} {pos nx : Nat} {ds rest : List Char}
    (hne : ds ≠ []) (hds : ∀ c ∈ ds, beginsWithDigit c = true)
    (hrest : isGarbage (headCh rest) = false)
    (hdrop : buf.drop pos = ds ++ rest) :
    peekToken ⟨buf, pos, nx⟩ =
      (⟨String.mk ds, .integer⟩, ⟨buf, pos, pos + ds.length⟩, []) := by
  unfold peekToken
  rw [peekCore_digits hne hds hrest hdrop]

theorem peekToken_buffer_current (s : Scanner) :
    ((peekToken s).2.1).buffer = s.buffer ∧
    ((peekToken s).2.1).currentCharacterIndex = s.currentCharacterIndex := by
  unfold peekToken
  rcases h : peekCore s.buffer s.currentCharacterIndex with ⟨t, onx, ds⟩
  cases onx <;> simp

theorem peekToken_fst (s : Scanner) :
    (peekToken s).1 = (peekCore s.buffer s.currentCharacterIndex).1 := by
  unfold peekToken
  rcases h : peekCore s.buffer s.currentCharacterIndex with ⟨t, onx, ds⟩
  cases onx <;> simp

/-! ## Suffixes on which a grammar level stops

In a rendered well-formed expression, the characters that can follow a
complete additive expression, multiplicative expression, or primary
expression are constrained; these predicates capture the possible
suffixes at each level. -/

/-- Suffixes that can follow a complete additive expression: end of input
or a closing parenthesis. -/
def stopA (l : List Char) : Prop :=
  l = [] ∨ ∃ t, l = ')' :: t

/-- Suffixes that can follow a complete multiplicative expression. -/
def stopM (l : List Char) : Prop :=
  stopA l ∨ (∃ t, l = '+' :: t) ∨ (∃ t, l = '-' :: t)

/-- Suffixes that can follow a complete primary expression. -/
def stopP (l : List Char) : Prop :=
  stopM l ∨ ∃ t, l = '*' :: t

theorem stopA_stopM {l : List Char} (h : stopA l) : stopM l := Or.inl h

theorem stopM_stopP {l : List Char} (h : stopM l) : stopP l := Or.inl h

theorem stopP_not_garbage {l : List Char} (h : stopP l) :
    isGarbage (headCh l) = false := by
  rcases h with ((rfl | ⟨t, rfl⟩) | ⟨t, rfl⟩ | ⟨t, rfl⟩) | ⟨t, rfl⟩ <;> rfl

theorem stopM_peek {rest buf : List Char} {pos nx : Nat} (hs : stopM rest)
    (hd : buf.drop pos = rest) :
    ∃ nx2 tok, peekToken ⟨buf, pos, nx⟩ = (tok, ⟨buf, pos, nx2⟩, []) ∧
      matchFactor tok = false := by
  rcases hs with (rfl | ⟨t, rfl⟩) | ⟨t, rfl⟩ | ⟨t, rfl⟩
  · exact ⟨nx, _, peekToken_end hd, rfl⟩
  · exact ⟨pos + 1, _,
      peekToken_symbol (show ((')' : Char), TokenType.rparen) ∈ symTable by decide) hd, rfl⟩
  · exact ⟨pos + 1, _,
      peekToken_symbol (show (('+' : Char), TokenType.add) ∈ symTable by decide) hd, rfl⟩
  · exact ⟨pos + 1, _,
      peekToken_symbol (show (('-' : Char), TokenType.minus) ∈ symTable by decide) hd, rfl⟩

theorem stopA_peek {rest buf : List Char} {pos nx : Nat} (hs : stopA rest)
    (hd : buf.drop pos = rest) :
    ∃ nx2 tok, peekToken ⟨buf, pos, nx⟩ = (tok, ⟨buf, pos, nx2⟩, []) ∧
      matchTerm tok = false ∧ matchFactor tok = false := by
  rcases hs with rfl | ⟨t, rfl⟩
  · exact ⟨nx, _, peekToken_end hd, rfl, rfl⟩
  · exact ⟨pos + 1, _,
      peekToken_symbol (show ((')' : Char), TokenType.rparen) ∈ symTable by decide) hd, rfl, rfl⟩

/-! ## Well-formed expressions

The claims quantify over well-formed expression strings with at most two
operators of the same precedence level in a row.  These are generated by
the following mutually inductive syntax: a primary is an integer literal
(carried as its digit characters) or a parenthesized expression; a
multiplicative expression is a chain of one, two or three primaries
joined by `*`; an additive expression is a chain of one, two or three
multiplicative expressions joined by `+` or `-`. -/

/-- An additive-level operator. -/
inductive TermOp where
  | plus
  | minus
deriving DecidableEq, Repr

/-- The character an additive operator is written as. -/
def TermOp.ch : TermOp → Char
  | .plus => '+'
  | .minus => '-'

/-- The token type the scanner assigns to an additive operator. -/
def TermOp.tt : TermOp → TokenType
  | .plus => .add
  | .minus => .minus

/-- Integer evaluation of an additive operator. -/
def TermOp.app : TermOp → Int → Int → Int
  | .plus, a, b => a + b
  | .minus, a, b => a - b

mutual

/-- Primary expressions: an integer literal given by its digit
characters, or a parenthesized additive expression. -/
inductive PrimaryE where
  | num (ds : List Char)
  | paren (e : AddE)

/-- Multiplicative chains of at most three primaries (at most two `*`
operators in a row). -/
inductive MulE where
  | one (p : PrimaryE)
  | two (p q : PrimaryE)
  | three (p q r : PrimaryE)

/-- Additive chains of at most three multiplicative expressions (at most
two same-precedence operators in a row). -/
inductive AddE where
  | one (m : MulE)
  | two (op : TermOp) (m n : MulE)
  | three (op1 op2 : TermOp) (m n k : MulE)

end

mutual

/-- The character string a primary expression is written as. -/
def renderP : PrimaryE → List Char
  | .num ds => ds
  | .paren e => '(' :: (renderA e ++ [')'])

/-- The character string a multiplicative chain is written as. -/
def renderM : MulE → List Char
  | .one p => renderP p
  | .two p q => renderP p ++ '*' :: renderP q
  | .three p q r => renderP p ++ '*' :: renderP q ++ '*' :: renderP r

/-- The character string an additive chain is written as. -/
def renderA : AddE → List Char
  | .one m => renderM m
  | .two op m n => renderM m ++ op.ch :: renderM n
  | .three op1 op2 m n k =>
    renderM m ++ op1.ch :: renderM n ++ op2.ch :: renderM k

end

mutual

/-- The tree the parser builds for a primary expression. -/
def treeP : PrimaryE → Tree
  | .num ds => .literal ⟨String.mk ds, .integer⟩
  | .paren e => treeA e

/-- The tree the parser builds for a multiplicative chain: two-element
chains pair up on the left, and the third operand of a three-element
chain is attached by the recursive same-level call. -/
def treeM : MulE → Tree
  | .one p => treeP p
  | .two p q => .binary .mul (treeP p) (treeP q)
  | .three p q r => .binary .mul (.binary .mul (treeP p) (treeP q)) (treeP r)

/-- The tree the parser builds for an additive chain. -/
def treeA : AddE → Tree
  | .one m => treeM m
  | .two op m n => .binary op.tt (treeM m) (treeM n)
  | .three op1 op2 m n k =>
    .binary op2.tt (.binary op1.tt (treeM m) (treeM n)) (treeM k)

end

/-- The numeric value of a digit run, most significant digit first. -/
def digitsVal (ds : List Char) : Nat :=
  ds.foldl (fun acc c => acc * 10 + (c.toNat - 48)) 0

mutual

/-- The mathematical (unbounded) integer value of a primary expression. -/
def valP : PrimaryE → Int
  | .num ds => (digitsVal ds : Int)
  | .paren e => valA e

/-- The mathematical value of a multiplicative chain under standard
left-to-right evaluation. -/
def valM : MulE → Int
  | .one p => valP p
  | .two p q => valP p * valP q
  | .three p q r => valP p * valP q * valP r

/-- The mathematical value of an additive chain under standard
left-to-right evaluation. -/
def valA : AddE → Int
  | .one m => valM m
  | .two op m n => op.app (valM m) (valM n)
  | .three op1 op2 m n k => op2.app (op1.app (valM m) (valM n)) (valM k)

end

/-- Well-formed digit runs: nonempty, all decimal digits, and small
enough that `std::atoll` has defined behavior on them. -/
def wfDigits (ds : List Char) : Bool :=
  ds ≠ [] && ds.all beginsWithDigit && digitsVal ds < 9223372036854775808

mutual

/-- Well-formedness of a primary expression. -/
def wfP : PrimaryE → Bool
  | .num ds => wfDigits ds
  | .paren e => wfA e

/-- Well-formedness of a multiplicative chain. -/
def wfM : MulE → Bool
  | .one p => wfP p
  | .two p q => wfP p && wfP q
  | .three p q r => wfP p && wfP q && wfP r

/-- Well-formedness of an additive chain. -/
def wfA : AddE → Bool
  | .one m => wfM m
  | .two _ m n => wfM m && wfM n
  | .three _ _ m n k => wfM m && wfM n && wfM k

end

mutual

/-- Fuel sufficient for `parsePrimary` on a rendered primary. -/
def fuelP : PrimaryE → Nat
  | .num _ => 1
  | .paren e => fuelA e + 2

/-- Fuel sufficient for `parseMultiplicativeExpression` on a rendered
multiplicative chain. -/
def fuelM : MulE → Nat
  | .one p => fuelP p + 1
  | .two p q => fuelP p + fuelP q + 1
  | .three p q r => fuelP p + fuelP q + fuelP r + 2

/-- Fuel sufficient for `parseAdditiveExpression` on a rendered additive
chain. -/
def fuelA : AddE → Nat
  | .one m => fuelM m + 1
  | .two _ m n => fuelM m + fuelM n + 1
  | .three _ _ m n k => fuelM m + fuelM n + fuelM k + 2

end

/-! ## Further scanner lemmas: whitespace prefixes and malformed literals -/

theorem space_facts {c : Char} (h : isspaceC c = true) : c.toNat ≠ 0 := by
  simp only [isspaceC, Bool.or_eq_true, Bool.and_eq_true, decide_eq_true_eq] at h
  omega

theorem peekCore_ws_digits {ws ds rest : List Char} {nx : Nat}
    (hws : ∀ c ∈ ws, isspaceC c = true)
    (hpr : isprintC (headCh (ws ++ ds ++ rest)) = true)
    (hne : ds ≠ []) (hds : ∀ c ∈ ds, beginsWithDigit c = true)
    (hrest : isGarbage (headCh rest) = false) :
    peekToken ⟨ws ++ ds ++ rest, 0, nx⟩ =
      (⟨String.mk ds, .integer⟩, ⟨ws ++ ds ++ rest, 0, ws.length + ds.length⟩, []) := by
  obtain ⟨d, ds0, rfl⟩ := List.exists_cons_of_ne_nil hne
  have hd := digit_facts (hds d (by simp))
  have hnotdig : beginsWithDigit (headCh rest) = false := not_digit_of_not_garbage hrest
  have hc0 : (headCh (ws ++ (d :: ds0) ++ rest)).toNat ≠ 0 := by
    cases ws with
    | nil => simpa [headCh] using hd.1
    | cons w t =>
      exact space_facts (by simpa [headCh] using hws w (by simp))
  have hwstake : (ws ++ ((d :: ds0) ++ rest)).takeWhile isspaceC = ws :=
    takeWhile_all_append _ _ hws (by simpa [headCh] using hd.2.2.1)
  have htake : ((d :: ds0) ++ rest).takeWhile beginsWithDigit = d :: ds0 :=
    takeWhile_all_append _ _ hds hnotdig
  unfold peekToken
  show (match peekCore ((ws ++ (d :: ds0)) ++ rest) 0 with
    | (t, none, ds) => (t, (⟨(ws ++ (d :: ds0)) ++ rest, 0, nx⟩ : Scanner), ds)
    | (t, some nx2, ds) =>
        (t, (⟨(ws ++ (d :: ds0)) ++ rest, 0, nx2⟩ : Scanner), ds)) = _
  have hcore : peekCore ((ws ++ (d :: ds0)) ++ rest) 0 =
      (⟨String.mk (d :: ds0), .integer⟩, some (ws.length + (d :: ds0).length), []) := by
    unfold peekCore
    simp only [List.drop_zero]
    rw [if_neg (by simpa [List.append_assoc] using hc0)]
    rw [if_neg (by simpa [List.append_assoc] using hpr)]
    rw [List.append_assoc, hwstake, List.drop_left]
    unfold scanAfterWs
    simp only [headCh, List.cons_append, List.headD_cons, hds d (by simp), if_true]
    rw [← List.cons_append, htake]
    simp only [List.drop_left]
    have hrest2 : isGarbage (rest.head?.getD (Char.ofNat 0)) = false := by
      cases rest <;> simpa [headCh] using hrest
    rw [if_neg (by simp [hrest2])]
    simp
  rw [hcore]

/-- `peekToken` when the character at the cursor is printable and not
whitespace: the whitespace skip is empty and classification happens
directly on the remaining suffix. -/
theorem peekCore_noWs {buf : List Char} {pos : Nat} {l : List Char}
    {tk : Token} {k : Nat} {dg : List Diag}
    (hdrop : buf.drop pos = l)
    (hpr : isprintC (headCh l) = true) (hns : isspaceC (headCh l) = false)
    (hscan : scanAfterWs l = (tk, k, dg)) :
    peekCore buf pos = (tk, some (pos + k), dg) := by
  have h0 : (headCh l).toNat ≠ 0 := by
    simp only [isprintC, Bool.and_eq_true, decide_eq_true_eq] at hpr
    omega
  cases l with
  | nil => exact absurd (by decide : (headCh ([] : List Char)).toNat = 0) h0
  | cons c t =>
    have hws : (c :: t).takeWhile isspaceC = [] := by
      simp only [headCh, List.headD_cons] at hns
      simp [List.takeWhile_cons, hns]
    simp only [peekCore]
    rw [hdrop]
    rw [if_neg h0, if_neg (by simp [hpr])]
    rw [hws]
    simp only [List.length_nil, List.drop_zero]
    rw [hscan]
    simp_arith

/-- The digit-then-garbage classification at lines 84-98: a digit run
followed by a nonempty run of identifier-like or dot characters yields
the integer token of the digit run alone, consumes both runs and prints
the "skipping trailing characters" diagnostic. -/
theorem scanAfterWs_garbage {ds g rest : List Char}
    (hne : ds ≠ []) (hds : ∀ c ∈ ds, beginsWithDigit c = true)
    (hgne : g ≠ []) (hgall : ∀ c ∈ g, isGarbage c = true)
    (hgd : beginsWithDigit (headCh g) = false)
    (hrest : isGarbage (headCh rest) = false) :
    scanAfterWs (ds ++ (g ++ rest)) =
      (⟨String.mk ds, .integer⟩, ds.length + g.length, [.skipTrailing]) := by
  obtain ⟨d, ds0, rfl⟩ := List.exists_cons_of_ne_nil hne
  obtain ⟨g0, gt, rfl⟩ := List.exists_cons_of_ne_nil hgne
  have hg0 : isGarbage g0 = true := hgall g0 (by simp)
  have htake : ((d :: ds0) ++ ((g0 :: gt) ++ rest)).takeWhile beginsWithDigit =
      d :: ds0 :=
    takeWhile_all_append _ _ hds (by simpa [headCh] using hgd)
  have hgtake : ((g0 :: gt) ++ rest).takeWhile isGarbage = g0 :: gt :=
    takeWhile_all_append _ _ hgall hrest
  simp only [scanAfterWs]
  rw [show headCh ((d :: ds0) ++ ((g0 :: gt) ++ rest)) = d from rfl]
  rw [if_pos (hds d (by simp))]
  rw [htake, List.drop_left]
  rw [show headCh ((g0 :: gt) ++ rest) = g0 from rfl]
  rw [if_pos hg0]
  rw [hgtake]

theorem peekToken_garbage {buf : List Char} {pos nx : Nat} {ds g rest : List Char}
    (hne : ds ≠ []) (hds : ∀ c ∈ ds, beginsWithDigit c = true)
    (hgne : g ≠ []) (hgall : ∀ c ∈ g, isGarbage c = true)
    (hgd : beginsWithDigit (headCh g) = false)
    (hrest : isGarbage (headCh rest) = false)
    (hdrop : buf.drop pos = ds ++ g ++ rest) :
    peekToken ⟨buf, pos, nx⟩ =
      (⟨String.mk ds, .integer⟩, ⟨buf, pos, pos + (ds.length + g.length)⟩,
        [.skipTrailing]) := by
  obtain ⟨d, ds0, rfl⟩ := List.exists_cons_of_ne_nil hne
  have hd := digit_facts (hds d (by simp))
  have hdrop2 : buf.drop pos = (d :: ds0) ++ (g ++ rest) := by
    simpa [List.append_assoc] using hdrop
  have hcore := peekCore_noWs hdrop2
    (by rw [show headCh ((d :: ds0) ++ (g ++ rest)) = d from rfl]; exact hd.2.1)
    (by rw [show headCh ((d :: ds0) ++ (g ++ rest)) = d from rfl]; exact hd.2.2.1)
    (scanAfterWs_garbage hne hds hgne hgall hgd hrest)
  unfold peekToken
  show (match peekCore buf pos with
    | (t, none, ds) => (t, (⟨buf, pos, nx⟩ : Scanner), ds)
    | (t, some nx2, ds) => (t, (⟨buf, pos, nx2⟩ : Scanner), ds)) = _
  rw [hcore]

/-! ## Scanning and parsing whitespace-only input -/

theorem peekCore_null_ws {l : List Char} (h : ∀ c ∈ l, isspaceC c = true) :
    (peekCore l 0).1.type = TokenType.null := by
  cases l with
  | nil => rfl
  | cons c t =>
    have hc := h c (by simp)
    by_cases hp : isprintC c = true
    · have hws : (c :: t).takeWhile isspaceC = c :: t := by
        have h2 := takeWhile_all_append (c :: t) [] h (by decide)
        simpa using h2
      unfold peekCore
      simp only [List.drop_zero, headCh, List.headD_cons]
      rw [if_neg (space_facts hc), if_neg (by simp [hp])]
      rw [hws, List.drop_length]
      rfl
    · unfold peekCore
      simp only [List.drop_zero, headCh, List.headD_cons]
      by_cases h0 : c.toNat = 0
      · rw [if_pos h0]
      · rw [if_neg h0, if_pos (by simpa using hp)]

theorem peekToken_ws_null {l : List Char} {nx : Nat}
    (h : ∀ c ∈ l, isspaceC c = true) :
    ∃ tok nx2 ds, peekToken ⟨l, 0, nx⟩ = (tok, ⟨l, 0, nx2⟩, ds) ∧
      tok.type = TokenType.null := by
  have ht := peekCore_null_ws h
  unfold peekToken
  rcases hpc : peekCore l 0 with ⟨t, onx, ds⟩
  rw [hpc] at ht
  cases onx with
  | none => exact ⟨t, nx, ds, rfl, ht⟩
  | some m => exact ⟨t, m, ds, rfl, ht⟩

theorem parsePrimary_ws {l : List Char} (h : ∀ c ∈ l, isspaceC c = true)
    (f nx : Nat) :
    ∃ nx2 d, parsePrimary f ⟨l, 0, nx⟩ = (.null, ⟨l, 0, nx2⟩, d) := by
  cases f with
  | zero => exact ⟨nx, [], rfl⟩
  | succ g =>
    obtain ⟨tok, nx2, ds, hpeek, htype⟩ := @peekToken_ws_null _ nx h
    refine ⟨nx2, ds ++ [.synError tok.name], ?_⟩
    simp only [parsePrimary]
    rw [hpeek]
    simp [matchToken, htype]

theorem parseMult_ws {l : List Char} (h : ∀ c ∈ l, isspaceC c = true)
    (f nx : Nat) :
    ∃ nx2 d, parseMultiplicativeExpression f ⟨l, 0, nx⟩ =
      (.null, ⟨l, 0, nx2⟩, d) := by
  cases f with
  | zero => exact ⟨nx, [], rfl⟩
  | succ g =>
    obtain ⟨nx2, d, hprim⟩ := parsePrimary_ws h g nx
    obtain ⟨tok, nx3, ds, hpeek, htype⟩ := @peekToken_ws_null _ nx2 h
    refine ⟨nx3, d ++ ds, ?_⟩
    simp only [parseMultiplicativeExpression]
    rw [hprim, hpeek]
    simp [matchFactor, htype]

theorem parseAdd_ws {l : List Char} (h : ∀ c ∈ l, isspaceC c = true)
    (f nx : Nat) :
    ∃ nx2 d, parseAdditiveExpression f ⟨l, 0, nx⟩ = (.null, ⟨l, 0, nx2⟩, d) := by
  cases f with
  | zero => exact ⟨nx, [], rfl⟩
  | succ g =>
    obtain ⟨nx2, d, hmult⟩ := parseMult_ws h g nx
    obtain ⟨tok, nx3, ds, hpeek, htype⟩ := @peekToken_ws_null _ nx2 h
    refine ⟨nx3, d ++ ds, ?_⟩
    simp only [parseAdditiveExpression]
    rw [hmult, hpeek]
    simp [matchTerm, htype]

theorem parseTop_ws (s : String) (h : ∀ c ∈ s.data, isspaceC c = true) :
    parseExpressionTop s = Tree.null := by
  obtain ⟨nx2, d, hadd⟩ := parseAdd_ws h (5 * s.data.length + 5) 0
  unfold parseExpressionTop runParse initScanner
  have heq : fuelFor s = 5 * s.data.length + 5 + 1 := by
    unfold fuelFor
    show 5 * s.data.length + 6 = _
    omega
  rw [heq]
  simp only [parseExpression]
  rw [hadd]

/-! ## Bound on evaluation results -/

theorem eval_lt (t : Tree) : evaluateConstantExpressionTree t < TWO64 := by
  induction t with
  | null => decide
  | literal tk =>
    simp only [evaluateConstantExpressionTree]
    exact Nat.mod_lt _ (by decide)
  | unary op c ihc =>
    cases op <;> simp only [evaluateConstantExpressionTree] <;>
      first
      | exact Nat.mod_lt _ (by decide)
      | exact ihc
  | binary op l r ihl ihr =>
    cases op <;> simp only [evaluateConstantExpressionTree] <;>
      first
      | exact Nat.mod_lt _ (by decide)
      | decide

/-! ## Peeking across a run of plain spaces

The concrete test inputs separate tokens with single spaces.  The
following lemmas describe one peek across an optional run of spaces
followed by a classified token. -/

/-- A run of plain space characters. -/
def wsSpaces (ws : List Char) : Prop :=
  ∀ c ∈ ws, c = ' '

instance wsSpacesDec (ws : List Char) : Decidable (wsSpaces ws) :=
  inferInstanceAs (Decidable (∀ c ∈ ws, c = ' '))

theorem wsSpaces_isspace {ws : List Char} (h : wsSpaces ws) :
    ∀ c ∈ ws, isspaceC c = true := by
  intro c hc
  rw [h c hc]
  decide

theorem wsSpaces_head_printable {ws r : List Char} (hws : wsSpaces ws)
    (hr : isprintC (headCh r) = true) :
    isprintC (headCh (ws ++ r)) = true := by
  cases ws with
  | nil => simpa using hr
  | cons w t =>
    show isprintC (headCh ((w :: t) ++ r)) = true
    rw [show headCh ((w :: t) ++ r) = w from rfl, hws w (by simp)]
    decide

/-- The whitespace-skipping shell of `peekToken` (lines 79-82), split off
from the classification of the first non-space character. -/
theorem peekCore_ws_generic {buf : List Char} {pos : Nat} {ws r : List Char}
    {tk : Token} {k : Nat} {dg : List Diag}
    (hws : ∀ c ∈ ws, isspaceC c = true)
    (hpr : isprintC (headCh (ws ++ r)) = true)
    (hns : isspaceC (headCh r) = false)
    (hscan : scanAfterWs r = (tk, k, dg))
    (hdrop : buf.drop pos = ws ++ r) :
    peekCore buf pos = (tk, some (pos + (ws.length + k)), dg) := by
  have h0 : (headCh (ws ++ r)).toNat ≠ 0 := by
    simp only [isprintC, Bool.and_eq_true, decide_eq_true_eq] at hpr
    omega
  have hwstake : (ws ++ r).takeWhile isspaceC = ws :=
    takeWhile_all_append _ _ hws hns
  simp only [peekCore]
  rw [hdrop]
  rw [if_neg h0, if_neg (by simp [hpr])]
  rw [hwstake, List.drop_left]
  rw [hscan]
  simp_arith

/-- Wrapping a computed `peekCore` result back into `peekToken`. -/
theorem peekToken_of_core {buf : List Char} {pos nx : Nat} {tk : Token}
    {nx2 : Nat} {dg : List Diag}
    (h : peekCore buf pos = (tk, some nx2, dg)) :
    peekToken ⟨buf, pos, nx⟩ = (tk, ⟨buf, pos, nx2⟩, dg) := by
  unfold peekToken
  show (match peekCore buf pos with
    | (t, none, ds) => (t, (⟨buf, pos, nx⟩ : Scanner), ds)
    | (t, some m, ds) => (t, (⟨buf, pos, m⟩ : Scanner), ds)) = _
  rw [h]

/-- The digit classification at lines 84-98 with a clean boundary: no
trailing garbage, so only the digit run is consumed. -/
theorem scanAfterWs_digits {ds rest : List Char}
    (hne : ds ≠ []) (hds : ∀ c ∈ ds, beginsWithDigit c = true)
    (hrest : isGarbage (headCh rest) = false) :
    scanAfterWs (ds ++ rest) = (⟨String.mk ds, .integer⟩, ds.length, []) := by
  obtain ⟨d, ds0, rfl⟩ := List.exists_cons_of_ne_nil hne
  have htake : ((d :: ds0) ++ rest).takeWhile beginsWithDigit = d :: ds0 :=
    takeWhile_all_append _ _ hds (not_digit_of_not_garbage hrest)
  simp only [scanAfterWs]
  rw [show headCh ((d :: ds0) ++ rest) = d from rfl]
  rw [if_pos (hds d (by simp))]
  rw [htake, List.drop_left]
  rw [if_neg (by simp [hrest])]

/-- The single-character dispatch at lines 101-121 for the recognized
operator and parenthesis characters. -/
theorem scanAfterWs_symbol {c : Char} {ty : TokenType} {rest : List Char}
    (h : (c, ty) ∈ symTable) :
    scanAfterWs (c :: rest) = (⟨String.mk [c], ty⟩, 1, []) := by
  simp only [symTable, List.mem_cons, List.not_mem_nil, or_false,
    Prod.mk.injEq] at h
  rcases h with ⟨rfl, rfl⟩ | ⟨rfl, rfl⟩ | ⟨rfl, rfl⟩ | ⟨rfl, rfl⟩ | ⟨rfl, rfl⟩ <;> rfl

/-- The default case of the dispatch (lines 122-125): an unrecognized
character makes a NULL token carrying the character, consumes nothing and
prints the "Unexpected lexical analysis character" diagnostic. -/
theorem scanAfterWs_unexpected {c : Char} {rest : List Char}
    (h1 : beginsWithDigit c = false)
    (h2 : c ≠ '+') (h3 : c ≠ '-') (h4 : c ≠ '*') (h5 : c ≠ '(') (h6 : c ≠ ')') :
    scanAfterWs (c :: rest) = (⟨String.mk [c], .null⟩, 0, [.unexpectedChar c]) := by
  simp only [scanAfterWs]
  rw [show headCh (c :: rest) = c from rfl]
  rw [if_neg (by simp [h1]), if_neg h2, if_neg h3, if_neg h4, if_neg h5, if_neg h6]

theorem symbol_not_space {c : Char} {ty : TokenType} (h : (c, ty) ∈ symTable) :
    isspaceC c = false ∧ isprintC c = true := by
  simp only [symTable, List.mem_cons, List.not_mem_nil, or_false,
    Prod.mk.injEq] at h
  rcases h with ⟨rfl, rfl⟩ | ⟨rfl, rfl⟩ | ⟨rfl, rfl⟩ | ⟨rfl, rfl⟩ | ⟨rfl, rfl⟩ <;>
    exact ⟨rfl, rfl⟩

/-- One peek across spaces onto a recognized single-character token. -/
theorem peekToken_ws_symbol (ws : List Char) {buf : List Char} {pos nx : Nat}
    {c : Char} {ty : TokenType} {rest : List Char}
    (hsym : (c, ty) ∈ symTable) (hws : wsSpaces ws)
    (hdrop : buf.drop pos = ws ++ c :: rest) :
    peekToken ⟨buf, pos, nx⟩ =
      (⟨String.mk [c], ty⟩, ⟨buf, pos, pos + (ws.length + 1)⟩, []) :=
  peekToken_of_core (peekCore_ws_generic (wsSpaces_isspace hws)
    (wsSpaces_head_printable hws
      (by rw [show headCh (c :: rest) = c from rfl]; exact (symbol_not_space hsym).2))
    (by rw [show headCh (c :: rest) = c from rfl]; exact (symbol_not_space hsym).1)
    (scanAfterWs_symbol hsym) hdrop)

/-- One peek across spaces onto an integer literal with a clean boundary. -/
theorem peekToken_ws_digits_at (ws : List Char) {buf : List Char} {pos nx : Nat}
    {ds rest : List Char}
    (hws : wsSpaces ws) (hne : ds ≠ [])
    (hds : ∀ c ∈ ds, beginsWithDigit c = true)
    (hrest : isGarbage (headCh rest) = false)
    (hdrop : buf.drop pos = ws ++ ds ++ rest) :
    peekToken ⟨buf, pos, nx⟩ =
      (⟨String.mk ds, .integer⟩,
        ⟨buf, pos, pos + (ws.length + ds.length)⟩, []) := by
  obtain ⟨d, ds0, rfl⟩ := List.exists_cons_of_ne_nil hne
  have hd := digit_facts (hds d (by simp))
  refine peekToken_of_core (peekCore_ws_generic (wsSpaces_isspace hws)
    (wsSpaces_head_printable hws ?_) ?_
    (scanAfterWs_digits hne hds hrest) ?_)
  · rw [show headCh ((d :: ds0) ++ rest) = d from rfl]
    exact hd.2.1
  · rw [show headCh ((d :: ds0) ++ rest) = d from rfl]
    exact hd.2.2.1
  · simpa [List.append_assoc] using hdrop

/-- One peek across spaces onto an unrecognized printable character. -/
theorem peekToken_ws_unexpected (ws : List Char) {buf : List Char} {pos nx : Nat}
    {c : Char} {rest : List Char}
    (hws : wsSpaces ws) (hpr : isprintC c = true) (hns : isspaceC c = false)
    (h1 : beginsWithDigit c = false)
    (h2 : c ≠ '+') (h3 : c ≠ '-') (h4 : c ≠ '*') (h5 : c ≠ '(') (h6 : c ≠ ')')
    (hdrop : buf.drop pos = ws ++ c :: rest) :
    peekToken ⟨buf, pos, nx⟩ =
      (⟨String.mk [c], .null⟩, ⟨buf, pos, pos + ws.length⟩,
        [.unexpectedChar c]) := by
  have h := @peekToken_of_core _ _ nx _ _ _ (peekCore_ws_generic (wsSpaces_isspace hws)
    (wsSpaces_head_printable hws (by rwa [show headCh (c :: rest) = c from rfl]))
    (by rwa [show headCh (c :: rest) = c from rfl])
    (scanAfterWs_unexpected h1 h2 h3 h4 h5 h6) hdrop)
  simpa using h

/-! ## Parser soundness on rendered well-formed expressions -/

theorem termOp_mem_symTable (op : TermOp) : (op.ch, op.tt) ∈ symTable := by
  cases op <;> decide

theorem matchTerm_op (op : TermOp) (nm : String) :
    matchTerm ⟨nm, op.tt⟩ = true := by
  cases op <;> rfl

theorem stopM_op (op : TermOp) (t : List Char) : stopM (op.ch :: t) := by
  cases op
  · exact Or.inr (Or.inl ⟨t, rfl⟩)
  · exact Or.inr (Or.inr ⟨t, rfl⟩)

theorem stopP_star (t : List Char) : stopP ('*' :: t) := Or.inr ⟨t, rfl⟩

theorem matchFactor_star : matchFactor ⟨String.mk ['*'], .mul⟩ = true := rfl

theorem wfDigits_parts {ds : List Char} (h : wfDigits ds = true) :
    ds ≠ [] ∧ (∀ c ∈ ds, beginsWithDigit c = true) := by
  simp only [wfDigits, Bool.and_eq_true, decide_eq_true_eq, List.all_eq_true] at h
  exact ⟨h.1.1, h.1.2⟩

/-- Soundness statement for `parsePrimary` at one primary expression. -/
def StatP (p : PrimaryE) : Prop :=
  ∀ fuel buf pos nx (rest : List Char), wfP p = true → fuelP p ≤ fuel →
    stopP rest → buf.drop pos = renderP p ++ rest →
    ∃ nx2, parsePrimary fuel ⟨buf, pos, nx⟩ =
      (treeP p, ⟨buf, pos + (renderP p).length, nx2⟩, [])

/-- Soundness statement for `parseMultiplicativeExpression` at one
multiplicative chain. -/
def StatM (m : MulE) : Prop :=
  ∀ fuel buf pos nx (rest : List Char), wfM m = true → fuelM m ≤ fuel →
    stopM rest → buf.drop pos = renderM m ++ rest →
    ∃ nx2, parseMultiplicativeExpression fuel ⟨buf, pos, nx⟩ =
      (treeM m, ⟨buf, pos + (renderM m).length, nx2⟩, [])

/-- Soundness statement for `parseAdditiveExpression` at one additive
chain. -/
def StatA (e : AddE) : Prop :=
  ∀ fuel buf pos nx (rest : List Char), wfA e = true → fuelA e ≤ fuel →
    stopA rest → buf.drop pos = renderA e ++ rest →
    ∃ nx2, parseAdditiveExpression fuel ⟨buf, pos, nx⟩ =
      (treeA e, ⟨buf, pos + (renderA e).length, nx2⟩, [])

theorem sizeOfP_pos (p : PrimaryE) : 0 < sizeOf p := by
  cases p <;> simp_arith

theorem sizeOfM_pos (m : MulE) : 0 < sizeOf m := by
  cases m <;> simp_arith

/-- Master soundness proof, by strong induction on the size of the
expression: the parser, run on the rendering of a well-formed expression
followed by a level-appropriate suffix, consumes exactly the rendering,
produces the predicted tree, and prints nothing. -/
theorem parseSound : ∀ n : Nat,
    (∀ p : PrimaryE, sizeOf p ≤ n → StatP p) ∧
    (∀ m : MulE, sizeOf m ≤ n → StatM m) ∧
    (∀ e : AddE, sizeOf e ≤ n → StatA e) := by
  intro n
  induction n using Nat.strong_induction_on with
  | _ n ih =>
  refine ⟨?_, ?_, ?_⟩
  · -- primaries
    intro p hsz
    cases p with
    | num ds =>
      intro fuel buf pos nx rest hwf hfuel hstop hdrop
      simp only [renderP] at hdrop
      simp only [wfP] at hwf
      obtain ⟨hne, hall⟩ := wfDigits_parts hwf
      cases fuel with
      | zero => simp [fuelP] at hfuel
      | succ f =>
        have hrest := stopP_not_garbage hstop
        refine ⟨pos + ds.length, ?_⟩
        simp only [parsePrimary]
        rw [peekToken_digits hne hall hrest hdrop]
        simp [matchToken, nextToken, treeP, renderP]
    | paren e =>
      simp_arith only [PrimaryE.paren.sizeOf_spec] at hsz
      have hA : StatA e := (ih (sizeOf e) (by omega)).2.2 e le_rfl
      intro fuel buf pos nx rest hwf hfuel hstop hdrop
      simp only [renderP] at hdrop
      have hdrop1 : buf.drop pos = '(' :: (renderA e ++ (')' :: rest)) := by
        simpa using hdrop
      simp only [wfP] at hwf
      simp only [fuelP] at hfuel
      cases fuel with
      | zero => omega
      | succ f =>
      cases f with
      | zero => omega
      | succ g =>
        simp only [parsePrimary, parseExpression]
        rw [peekToken_symbol
          (show (('(' : Char), TokenType.lparen) ∈ symTable by decide) hdrop1]
        have hdrop2 : buf.drop (pos + 1) = renderA e ++ (')' :: rest) :=
          drop_cons hdrop1
        obtain ⟨nx2, hparse⟩ := hA g buf (pos + 1) (pos + 1) (')' :: rest)
          hwf (by omega) (Or.inr ⟨rest, rfl⟩) hdrop2
        simp only [matchToken, nextToken, decide_eq_true_eq, if_false, if_true,
          reduceCtorEq, reduceIte]
        rw [hparse]
        have hdrop3 : buf.drop (pos + 1 + (renderA e).length) = ')' :: rest :=
          drop_chunk hdrop2
        rw [peekToken_symbol
          (show ((')' : Char), TokenType.rparen) ∈ symTable by decide) hdrop3]
        refine ⟨pos + 1 + (renderA e).length + 1, ?_⟩
        simp only [reduceCtorEq, reduceIte, ne_eq, not_true_eq_false, if_false]
        simp_arith [nextToken, treeP, renderP]
  · -- multiplicative chains
    intro m hsz
    cases m with
    | one p =>
      simp_arith only [MulE.one.sizeOf_spec] at hsz
      have hP : StatP p := (ih (sizeOf p) (by omega)).1 p le_rfl
      intro fuel buf pos nx rest hwf hfuel hstop hdrop
      simp only [renderM] at hdrop
      simp only [wfM] at hwf
      simp only [fuelM] at hfuel
      cases fuel with
      | zero => omega
      | succ f =>
        simp only [parseMultiplicativeExpression]
        obtain ⟨nx2, hp⟩ := hP f buf pos nx rest hwf (by omega)
          (stopM_stopP hstop) hdrop
        rw [hp]
        have hdrop2 : buf.drop (pos + (renderP p).length) = rest :=
          drop_chunk hdrop
        obtain ⟨nx3, tok, hpeek, hmf⟩ := stopM_peek hstop hdrop2
        rw [hpeek, hmf]
        refine ⟨nx3, ?_⟩
        simp [treeM, renderM]
    | two p q =>
      simp_arith only [MulE.two.sizeOf_spec] at hsz
      have hPp : StatP p := (ih (sizeOf p) (by omega)).1 p le_rfl
      have hPq : StatP q := (ih (sizeOf q) (by omega)).1 q le_rfl
      intro fuel buf pos nx rest hwf hfuel hstop hdrop
      simp only [renderM] at hdrop
      have hd1 : buf.drop pos = renderP p ++ ('*' :: (renderP q ++ rest)) := by
        simpa [List.append_assoc] using hdrop
      simp only [wfM, Bool.and_eq_true] at hwf
      simp only [fuelM] at hfuel
      cases fuel with
      | zero => omega
      | succ f =>
        simp only [parseMultiplicativeExpression]
        obtain ⟨nx2, hp⟩ := hPp f buf pos nx ('*' :: (renderP q ++ rest))
          hwf.1 (by omega) (stopP_star _) hd1
        rw [hp]
        have hd2 : buf.drop (pos + (renderP p).length) = '*' :: (renderP q ++ rest) :=
          drop_chunk hd1
        rw [peekToken_symbol
          (show (('*' : Char), TokenType.mul) ∈ symTable by decide) hd2]
        rw [matchFactor_star]
        have hd3 : buf.drop (pos + (renderP p).length + 1) = renderP q ++ rest :=
          drop_cons hd2
        simp only [nextToken, reduceIte]
        obtain ⟨nx3, hq⟩ := hPq f buf (pos + (renderP p).length + 1)
          (pos + (renderP p).length + 1) rest hwf.2 (by omega)
          (stopM_stopP hstop) hd3
        rw [hq]
        have hd4 : buf.drop (pos + (renderP p).length + 1 + (renderP q).length) = rest :=
          drop_chunk hd3
        obtain ⟨nx4, tok2, hpeek2, hmf2⟩ := stopM_peek hstop hd4
        rw [hpeek2, hmf2]
        refine ⟨nx4, ?_⟩
        simp_arith [treeM, renderM, List.length_append]
    | three p q r =>
      simp_arith only [MulE.three.sizeOf_spec] at hsz
      have hPp : StatP p := (ih (sizeOf p) (by omega)).1 p le_rfl
      have hPq : StatP q := (ih (sizeOf q) (by omega)).1 q le_rfl
      have hMr : StatM (.one r) := by
        refine (ih (sizeOf (MulE.one r)) ?_).2.1 (.one r) le_rfl
        have h1 := sizeOfP_pos p
        have h2 := sizeOfP_pos q
        simp_arith only [MulE.one.sizeOf_spec]
        omega
      intro fuel buf pos nx rest hwf hfuel hstop hdrop
      simp only [renderM] at hdrop
      have hd1 : buf.drop pos =
          renderP p ++ ('*' :: (renderP q ++ ('*' :: (renderP r ++ rest)))) := by
        simpa [List.append_assoc] using hdrop
      simp only [wfM, Bool.and_eq_true] at hwf
      simp only [fuelM] at hfuel
      cases fuel with
      | zero => omega
      | succ f =>
        simp only [parseMultiplicativeExpression]
        obtain ⟨nx2, hp⟩ := hPp f buf pos nx
          ('*' :: (renderP q ++ ('*' :: (renderP r ++ rest))))
          hwf.1.1 (by omega) (stopP_star _) hd1
        rw [hp]
        have hd2 : buf.drop (pos + (renderP p).length) =
            '*' :: (renderP q ++ ('*' :: (renderP r ++ rest))) := drop_chunk hd1
        rw [peekToken_symbol
          (show (('*' : Char), TokenType.mul) ∈ symTable by decide) hd2]
        rw [matchFactor_star]
        have hd3 : buf.drop (pos + (renderP p).length + 1) =
            renderP q ++ ('*' :: (renderP r ++ rest)) := drop_cons hd2
        simp only [nextToken, reduceIte]
        obtain ⟨nx3, hq⟩ := hPq f buf (pos + (renderP p).length + 1)
          (pos + (renderP p).length + 1) ('*' :: (renderP r ++ rest))
          hwf.1.2 (by omega) (stopP_star _) hd3
        rw [hq]
        have hd4 : buf.drop (pos + (renderP p).length + 1 + (renderP q).length) =
            '*' :: (renderP r ++ rest) := drop_chunk hd3
        rw [peekToken_symbol
          (show (('*' : Char), TokenType.mul) ∈ symTable by decide) hd4]
        have hd5 : buf.drop (pos + (renderP p).length + 1 + (renderP q).length + 1) =
            renderP r ++ rest := drop_cons hd4
        obtain ⟨nx4, hr⟩ := hMr f buf
          (pos + (renderP p).length + 1 + (renderP q).length + 1)
          (pos + (renderP p).length + 1 + (renderP q).length + 1) rest
          (by simp [wfM, hwf.2]) (by simp only [fuelM]; omega) hstop
          (by simpa [renderM] using hd5)
        rw [hr]
        refine ⟨nx4, ?_⟩
        simp_arith [treeM, renderM, List.length_append]
  · -- additive chains
    intro e hsz
    cases e with
    | one m =>
      simp_arith only [AddE.one.sizeOf_spec] at hsz
      have hM : StatM m := (ih (sizeOf m) (by omega)).2.1 m le_rfl
      intro fuel buf pos nx rest hwf hfuel hstop hdrop
      simp only [renderA] at hdrop
      simp only [wfA] at hwf
      simp only [fuelA] at hfuel
      cases fuel with
      | zero => omega
      | succ f =>
        simp only [parseAdditiveExpression]
        obtain ⟨nx2, hm⟩ := hM f buf pos nx rest hwf (by omega)
          (stopA_stopM hstop) hdrop
        rw [hm]
        have hdrop2 : buf.drop (pos + (renderM m).length) = rest :=
          drop_chunk hdrop
        obtain ⟨nx3, tok, hpeek, hmt, _⟩ := stopA_peek hstop hdrop2
        rw [hpeek, hmt]
        refine ⟨nx3, ?_⟩
        simp [treeA, renderA]
    | two op m n =>
      simp_arith only [AddE.two.sizeOf_spec] at hsz
      have hMm : StatM m := (ih (sizeOf m) (by omega)).2.1 m le_rfl
      have hMn : StatM n := (ih (sizeOf n) (by omega)).2.1 n le_rfl
      intro fuel buf pos nx rest hwf hfuel hstop hdrop
      simp only [renderA] at hdrop
      have hd1 : buf.drop pos = renderM m ++ (op.ch :: (renderM n ++ rest)) := by
        simpa [List.append_assoc] using hdrop
      simp only [wfA, Bool.and_eq_true] at hwf
      simp only [fuelA] at hfuel
      cases fuel with
      | zero => omega
      | succ f =>
        simp only [parseAdditiveExpression]
        obtain ⟨nx2, hm⟩ := hMm f buf pos nx (op.ch :: (renderM n ++ rest))
          hwf.1 (by omega) (stopM_op op _) hd1
        rw [hm]
        have hd2 : buf.drop (pos + (renderM m).length) =
            op.ch :: (renderM n ++ rest) := drop_chunk hd1
        rw [peekToken_symbol (termOp_mem_symTable op) hd2]
        rw [matchTerm_op op]
        have hd3 : buf.drop (pos + (renderM m).length + 1) = renderM n ++ rest :=
          drop_cons hd2
        simp only [nextToken, reduceIte]
        obtain ⟨nx3, hn⟩ := hMn f buf (pos + (renderM m).length + 1)
          (pos + (renderM m).length + 1) rest hwf.2 (by omega)
          (stopA_stopM hstop) hd3
        rw [hn]
        have hd4 : buf.drop (pos + (renderM m).length + 1 + (renderM n).length) = rest :=
          drop_chunk hd3
        obtain ⟨nx4, tok2, hpeek2, hmt2, _⟩ := stopA_peek hstop hd4
        rw [hpeek2, hmt2]
        refine ⟨nx4, ?_⟩
        simp_arith [treeA, renderA, List.length_append]
    | three op1 op2 m n k =>
      simp_arith only [AddE.three.sizeOf_spec] at hsz
      have hMm : StatM m := (ih (sizeOf m) (by omega)).2.1 m le_rfl
      have hMn : StatM n := (ih (sizeOf n) (by omega)).2.1 n le_rfl
      have hAk : StatA (.one k) := by
        refine (ih (sizeOf (AddE.one k)) ?_).2.2 (.one k) le_rfl
        have h1 := sizeOfM_pos m
        have h2 := sizeOfM_pos n
        simp_arith only [AddE.one.sizeOf_spec]
        omega
      intro fuel buf pos nx rest hwf hfuel hstop hdrop
      simp only [renderA] at hdrop
      have hd1 : buf.drop pos =
          renderM m ++ (op1.ch :: (renderM n ++ (op2.ch :: (renderM k ++ rest)))) := by
        simpa [List.append_assoc] using hdrop
      simp only [wfA, Bool.and_eq_true] at hwf
      simp only [fuelA] at hfuel
      cases fuel with
      | zero => omega
      | succ f =>
        simp only [parseAdditiveExpression]
        obtain ⟨nx2, hm⟩ := hMm f buf pos nx
          (op1.ch :: (renderM n ++ (op2.ch :: (renderM k ++ rest))))
          hwf.1.1 (by omega) (stopM_op op1 _) hd1
        rw [hm]
        have hd2 : buf.drop (pos + (renderM m).length) =
            op1.ch :: (renderM n ++ (op2.ch :: (renderM k ++ rest))) :=
          drop_chunk hd1
        rw [peekToken_symbol (termOp_mem_symTable op1) hd2]
        rw [matchTerm_op op1]
        have hd3 : buf.drop (pos + (renderM m).length + 1) =
            renderM n ++ (op2.ch :: (renderM k ++ rest)) := drop_cons hd2
        simp only [nextToken, reduceIte]
        obtain ⟨nx3, hn⟩ := hMn f buf (pos + (renderM m).length + 1)
          (pos + (renderM m).length + 1) (op2.ch :: (renderM k ++ rest))
          hwf.1.2 (by omega) (stopM_op op2 _) hd3
        rw [hn]
        have hd4 : buf.drop (pos + (renderM m).length + 1 + (renderM n).length) =
            op2.ch :: (renderM k ++ rest) := drop_chunk hd3
        rw [peekToken_symbol (termOp_mem_symTable op2) hd4]
        rw [matchTerm_op op2]
        have hd5 : buf.drop (pos + (renderM m).length + 1 + (renderM n).length + 1) =
            renderM k ++ rest := drop_cons hd4
        simp only [nextToken, reduceIte]
        obtain ⟨nx4, hk⟩ := hAk f buf
          (pos + (renderM m).length + 1 + (renderM n).length + 1)
          (pos + (renderM m).length + 1 + (renderM n).length + 1) rest
          (by simp [wfA, hwf.2]) (by simp only [fuelA]; omega) hstop
          (by simpa [renderA] using hd5)
        rw [hk]
        refine ⟨nx4, ?_⟩
        simp_arith [treeA, renderA, List.length_append]

/-- The fuel measures are dominated by the rendered length, so the fuel
`fuelFor` supplies at the top level is always sufficient. -/
theorem fuelBound : ∀ n : Nat,
    (∀ p : PrimaryE, sizeOf p ≤ n → fuelP p ≤ 5 * (renderP p).length + 3) ∧
    (∀ m : MulE, sizeOf m ≤ n → fuelM m ≤ 5 * (renderM m).length + 4) ∧
    (∀ e : AddE, sizeOf e ≤ n → fuelA e ≤ 5 * (renderA e).length + 5) := by
  intro n
  induction n using Nat.strong_induction_on with
  | _ n ih =>
  refine ⟨?_, ?_, ?_⟩
  · intro p hsz
    cases p with
    | num ds => simp only [fuelP]; omega
    | paren e =>
      simp_arith only [PrimaryE.paren.sizeOf_spec] at hsz
      have h := (ih (sizeOf e) (by omega)).2.2 e le_rfl
      simp only [fuelP, renderP, List.length_cons, List.length_append,
        List.length_nil]
      omega
  · intro m hsz
    cases m with
    | one p =>
      simp_arith only [MulE.one.sizeOf_spec] at hsz
      have h := (ih (sizeOf p) (by omega)).1 p le_rfl
      simp only [fuelM, renderM]
      omega
    | two p q =>
      simp_arith only [MulE.two.sizeOf_spec] at hsz
      have h1 := (ih (sizeOf p) (by omega)).1 p le_rfl
      have h2 := (ih (sizeOf q) (by omega)).1 q le_rfl
      simp only [fuelM, renderM, List.length_append, List.length_cons]
      omega
    | three p q r =>
      simp_arith only [MulE.three.sizeOf_spec] at hsz
      have h1 := (ih (sizeOf p) (by omega)).1 p le_rfl
      have h2 := (ih (sizeOf q) (by omega)).1 q le_rfl
      have h3 := (ih (sizeOf r) (by omega)).1 r le_rfl
      simp only [fuelM, renderM, List.length_append, List.length_cons]
      omega
  · intro e hsz
    cases e with
    | one m =>
      simp_arith only [AddE.one.sizeOf_spec] at hsz
      have h := (ih (sizeOf m) (by omega)).2.1 m le_rfl
      simp only [fuelA, renderA]
      omega
    | two op m k =>
      simp_arith only [AddE.two.sizeOf_spec] at hsz
      have h1 := (ih (sizeOf m) (by omega)).2.1 m le_rfl
      have h2 := (ih (sizeOf k) (by omega)).2.1 k le_rfl
      simp only [fuelA, renderA, List.length_append, List.length_cons]
      omega
    | three op1 op2 m k j =>
      simp_arith only [AddE.three.sizeOf_spec] at hsz
      have h1 := (ih (sizeOf m) (by omega)).2.1 m le_rfl
      have h2 := (ih (sizeOf k) (by omega)).2.1 k le_rfl
      have h3 := (ih (sizeOf j) (by omega)).2.1 j le_rfl
      simp only [fuelA, renderA, List.length_append, List.length_cons]
      omega

/-- Running the whole pipeline front end on the rendering of a
well-formed expression yields exactly the predicted tree. -/
theorem parseTop_render (e : AddE) (hwf : wfA e = true) :
    parseExpressionTop (String.mk (renderA e)) = treeA e := by
  have hfuel : fuelA e ≤ 5 * (renderA e).length + 5 :=
    (fuelBound (sizeOf e)).2.2 e le_rfl
  have hstat : StatA e := (parseSound (sizeOf e)).2.2 e le_rfl
  obtain ⟨nx2, hp⟩ := hstat (5 * (renderA e).length + 5) (renderA e) 0 0 []
    hwf hfuel (Or.inl rfl) (by simp)
  have hl : (String.mk (renderA e)).length = (renderA e).length := rfl
  have heq : fuelFor (String.mk (renderA e)) = 5 * (renderA e).length + 5 + 1 := by
    unfold fuelFor
    rw [hl]
  unfold parseExpressionTop runParse initScanner
  rw [heq]
  simp only [parseExpression]
  show (parseAdditiveExpression (5 * (renderA e).length + 5)
    ⟨renderA e, 0, 0⟩).1 = treeA e
  rw [hp]

/-! ## Evaluation of well-formed expressions -/

/-- Reduction of a mathematical integer into the `std::uint64_t` domain. -/
def intVal (z : Int) : Nat :=
  (z % (TWO64 : Int)).toNat

theorem intVal_natCast (k : Nat) : intVal (k : Int) = k % TWO64 := by
  unfold intVal
  simp only [TWO64]
  omega

theorem intVal_add (x y : Int) :
    intVal (x + y) = (intVal x + intVal y) % TWO64 := by
  unfold intVal
  rw [Int.add_emod]
  simp only [TWO64]
  omega

theorem intVal_sub (x y : Int) :
    intVal (x - y) = (intVal x + (TWO64 - intVal y)) % TWO64 := by
  unfold intVal
  rw [Int.sub_emod]
  simp only [TWO64]
  omega

theorem intVal_mul (x y : Int) :
    intVal (x * y) = (intVal x * intVal y) % TWO64 := by
  unfold intVal
  rw [Int.mul_emod]
  have hx : 0 ≤ x % (TWO64 : Int) := Int.emod_nonneg x (by simp [TWO64])
  have hy : 0 ≤ y % (TWO64 : Int) := Int.emod_nonneg y (by simp [TWO64])
  obtain ⟨a, ha⟩ : ∃ a : Nat, x % (TWO64 : Int) = (a : Int) :=
    ⟨_, (Int.toNat_of_nonneg hx).symm⟩
  obtain ⟨b, hb⟩ : ∃ b : Nat, y % (TWO64 : Int) = (b : Int) :=
    ⟨_, (Int.toNat_of_nonneg hy).symm⟩
  rw [ha, hb]
  simp only [Int.toNat_natCast]
  rw [show ((a : Int) * (b : Int)) = ((a * b : Nat) : Int) by push_cast; ring]
  generalize a * b = c
  simp only [TWO64]
  omega

theorem atollNat_digits {ds : List Char} (hall : ∀ c ∈ ds, beginsWithDigit c = true) :
    atollNat (String.mk ds) = digitsVal ds := by
  unfold atollNat digitsVal
  have : ds.takeWhile beginsWithDigit = ds := by
    have h := takeWhile_all_append (p := beginsWithDigit) ds [] hall (by decide)
    simpa using h
  show ((String.mk ds).data.takeWhile beginsWithDigit).foldl _ 0 = _
  rw [show (String.mk ds).data = ds from rfl, this]

/-- Evaluation soundness: the tree the parser builds for a well-formed
expression evaluates to the standard left-to-right mathematical value of
the expression, reduced into the 64-bit unsigned domain. -/
theorem evalSound : ∀ n : Nat,
    (∀ p : PrimaryE, sizeOf p ≤ n → wfP p = true →
      evaluateConstantExpressionTree (treeP p) = intVal (valP p)) ∧
    (∀ m : MulE, sizeOf m ≤ n → wfM m = true →
      evaluateConstantExpressionTree (treeM m) = intVal (valM m)) ∧
    (∀ e : AddE, sizeOf e ≤ n → wfA e = true →
      evaluateConstantExpressionTree (treeA e) = intVal (valA e)) := by
  intro n
  induction n using Nat.strong_induction_on with
  | _ n ih =>
  refine ⟨?_, ?_, ?_⟩
  · intro p hsz hwf
    cases p with
    | num ds =>
      simp only [wfP] at hwf
      obtain ⟨-, hall⟩ := wfDigits_parts hwf
      simp only [treeP, valP, evaluateConstantExpressionTree]
      rw [atollNat_digits hall, intVal_natCast]
    | paren e =>
      simp_arith only [PrimaryE.paren.sizeOf_spec] at hsz
      simp only [wfP] at hwf
      simp only [treeP, valP]
      exact (ih (sizeOf e) (by omega)).2.2 e le_rfl hwf
  · intro m hsz hwf
    cases m with
    | one p =>
      simp_arith only [MulE.one.sizeOf_spec] at hsz
      simp only [wfM] at hwf
      simp only [treeM, valM]
      exact (ih (sizeOf p) (by omega)).1 p le_rfl hwf
    | two p q =>
      simp_arith only [MulE.two.sizeOf_spec] at hsz
      simp only [wfM, Bool.and_eq_true] at hwf
      have h1 := (ih (sizeOf p) (by omega)).1 p le_rfl hwf.1
      have h2 := (ih (sizeOf q) (by omega)).1 q le_rfl hwf.2
      simp only [treeM, valM, evaluateConstantExpressionTree]
      rw [h1, h2, intVal_mul]
    | three p q r =>
      simp_arith only [MulE.three.sizeOf_spec] at hsz
      simp only [wfM, Bool.and_eq_true] at hwf
      have h1 := (ih (sizeOf p) (by omega)).1 p le_rfl hwf.1.1
      have h2 := (ih (sizeOf q) (by omega)).1 q le_rfl hwf.1.2
      have h3 := (ih (sizeOf r) (by omega)).1 r le_rfl hwf.2
      simp only [treeM, valM, evaluateConstantExpressionTree]
      rw [h1, h2, h3, intVal_mul, intVal_mul]
  · intro e hsz hwf
    cases e with
    | one m =>
      simp_arith only [AddE.one.sizeOf_spec] at hsz
      simp only [wfA] at hwf
      simp only [treeA, valA]
      exact (ih (sizeOf m) (by omega)).2.1 m le_rfl hwf
    | two op m k =>
      simp_arith only [AddE.two.sizeOf_spec] at hsz
      simp only [wfA, Bool.and_eq_true] at hwf
      have h1 := (ih (sizeOf m) (by omega)).2.1 m le_rfl hwf.1
      have h2 := (ih (sizeOf k) (by omega)).2.1 k le_rfl hwf.2
      cases op with
      | plus =>
        simp only [treeA, valA, TermOp.tt, TermOp.app, evaluateConstantExpressionTree]
        rw [h1, h2, intVal_add]
      | minus =>
        simp only [treeA, valA, TermOp.tt, TermOp.app, evaluateConstantExpressionTree]
        rw [h1, h2, intVal_sub]
    | three op1 op2 m k j =>
      simp_arith only [AddE.three.sizeOf_spec] at hsz
      simp only [wfA, Bool.and_eq_true] at hwf
      have h1 := (ih (sizeOf m) (by omega)).2.1 m le_rfl hwf.1.1
      have h2 := (ih (sizeOf k) (by omega)).2.1 k le_rfl hwf.1.2
      have h3 := (ih (sizeOf j) (by omega)).2.1 j le_rfl hwf.2
      cases op1 with
      | plus =>
        cases op2 with
        | plus =>
          simp only [treeA, valA, TermOp.tt, TermOp.app, evaluateConstantExpressionTree]
          rw [h1, h2, h3, intVal_add, intVal_add]
        | minus =>
          simp only [treeA, valA, TermOp.tt, TermOp.app, evaluateConstantExpressionTree]
          rw [h1, h2, h3, intVal_sub, intVal_add]
      | minus =>
        cases op2 with
        | plus =>
          simp only [treeA, valA, TermOp.tt, TermOp.app, evaluateConstantExpressionTree]
          rw [h1, h2, h3, intVal_add, intVal_sub]
        | minus =>
          simp only [treeA, valA, TermOp.tt, TermOp.app, evaluateConstantExpressionTree]
          rw [h1, h2, h3, intVal_sub, intVal_sub]

/-! ## Parser soundness on space-separated renderings

The concrete expressions of the test table separate every binary
operator from its operands with single spaces.  The following renderers
emit that format, and a second soundness proof covers them with the same
trees, values, well-formedness and fuel measures as before. -/

mutual

/-- A primary expression written with spaces around binary operators. -/
def renderPS : PrimaryE → List Char
  | .num ds => ds
  | .paren e => '(' :: (renderAS e ++ [')'])

/-- A multiplicative chain written with spaces around `*`. -/
def renderMS : MulE → List Char
  | .one p => renderPS p
  | .two p q => renderPS p ++ ' ' :: '*' :: ' ' :: renderPS q
  | .three p q r =>
    renderPS p ++ ' ' :: '*' :: ' ' :: renderPS q ++ ' ' :: '*' :: ' ' :: renderPS r

/-- An additive chain written with spaces around `+` and `-`. -/
def renderAS : AddE → List Char
  | .one m => renderMS m
  | .two op m n => renderMS m ++ ' ' :: op.ch :: ' ' :: renderMS n
  | .three op1 op2 m n k =>
    renderMS m ++ ' ' :: op1.ch :: ' ' :: renderMS n ++
      ' ' :: op2.ch :: ' ' :: renderMS k

end

/-- Suffixes that can follow a complete multiplicative chain in the
spaced format. -/
def stopMS (l : List Char) : Prop :=
  stopA l ∨ (∃ t, l = ' ' :: '+' :: t) ∨ (∃ t, l = ' ' :: '-' :: t)

/-- Suffixes that can follow a complete primary expression in the spaced
format. -/
def stopPS (l : List Char) : Prop :=
  stopMS l ∨ ∃ t, l = ' ' :: '*' :: t

theorem stopA_stopMS {l : List Char} (h : stopA l) : stopMS l := Or.inl h

theorem stopM_stopPS {l : List Char} (h : stopMS l) : stopPS l := Or.inl h

theorem stopPS_not_garbage {l : List Char} (h : stopPS l) :
    isGarbage (headCh l) = false := by
  rcases h with ((rfl | ⟨t, rfl⟩) | ⟨t, rfl⟩ | ⟨t, rfl⟩) | ⟨t, rfl⟩ <;> rfl

theorem stopM_opS (op : TermOp) (t : List Char) : stopMS (' ' :: op.ch :: t) := by
  cases op
  · exact Or.inr (Or.inl ⟨t, rfl⟩)
  · exact Or.inr (Or.inr ⟨t, rfl⟩)

theorem stopP_starS (t : List Char) : stopPS (' ' :: '*' :: t) := Or.inr ⟨t, rfl⟩

theorem stopMS_peekS {rest buf : List Char} {pos nx : Nat} (hs : stopMS rest)
    (hd : buf.drop pos = rest) :
    ∃ nx2 tok, peekToken ⟨buf, pos, nx⟩ = (tok, ⟨buf, pos, nx2⟩, []) ∧
      matchFactor tok = false := by
  rcases hs with (rfl | ⟨t, rfl⟩) | ⟨t, rfl⟩ | ⟨t, rfl⟩
  · exact ⟨nx, _, peekToken_end hd, rfl⟩
  · exact ⟨pos + 1, _,
      peekToken_symbol (show ((')' : Char), TokenType.rparen) ∈ symTable by decide) hd, rfl⟩
  · exact ⟨_, _,
      peekToken_ws_symbol [' ']
        (show (('+' : Char), TokenType.add) ∈ symTable by decide) (by decide) hd, rfl⟩
  · exact ⟨_, _,
      peekToken_ws_symbol [' ']
        (show (('-' : Char), TokenType.minus) ∈ symTable by decide) (by decide) hd, rfl⟩

theorem stopAS_peekS {rest buf : List Char} {pos nx : Nat} (hs : stopA rest)
    (hd : buf.drop pos = rest) :
    ∃ nx2 tok, peekToken ⟨buf, pos, nx⟩ = (tok, ⟨buf, pos, nx2⟩, []) ∧
      matchTerm tok = false ∧ matchFactor tok = false := by
  rcases hs with rfl | ⟨t, rfl⟩
  · exact ⟨nx, _, peekToken_end hd, rfl, rfl⟩
  · exact ⟨pos + 1, _,
      peekToken_symbol (show ((')' : Char), TokenType.rparen) ∈ symTable by decide) hd,
      rfl, rfl⟩

/-- Soundness statement for `parsePrimary` on the spaced format, allowing
a run of leading spaces before the primary expression. -/
def StatPS (p : PrimaryE) : Prop :=
  ∀ (ws : List Char) fuel buf pos nx (rest : List Char), wsSpaces ws →
    wfP p = true → fuelP p ≤ fuel → stopPS rest →
    buf.drop pos = ws ++ (renderPS p ++ rest) →
    ∃ nx2, parsePrimary fuel ⟨buf, pos, nx⟩ =
      (treeP p, ⟨buf, pos + ws.length + (renderPS p).length, nx2⟩, [])

/-- Soundness statement for `parseMultiplicativeExpression` on the spaced
format. -/
def StatMS (m : MulE) : Prop :=
  ∀ (ws : List Char) fuel buf pos nx (rest : List Char), wsSpaces ws →
    wfM m = true → fuelM m ≤ fuel → stopMS rest →
    buf.drop pos = ws ++ (renderMS m ++ rest) →
    ∃ nx2, parseMultiplicativeExpression fuel ⟨buf, pos, nx⟩ =
      (treeM m, ⟨buf, pos + ws.length + (renderMS m).length, nx2⟩, [])

/-- Soundness statement for `parseAdditiveExpression` on the spaced
format. -/
def StatAS (e : AddE) : Prop :=
  ∀ (ws : List Char) fuel buf pos nx (rest : List Char), wsSpaces ws →
    wfA e = true → fuelA e ≤ fuel → stopA rest →
    buf.drop pos = ws ++ (renderAS e ++ rest) →
    ∃ nx2, parseAdditiveExpression fuel ⟨buf, pos, nx⟩ =
      (treeA e, ⟨buf, pos + ws.length + (renderAS e).length, nx2⟩, [])

/-- Master soundness proof for the spaced format, by strong induction on
the size of the expression. -/
theorem parseSoundS : ∀ n : Nat,
    (∀ p : PrimaryE, sizeOf p ≤ n → StatPS p) ∧
    (∀ m : MulE, sizeOf m ≤ n → StatMS m) ∧
    (∀ e : AddE, sizeOf e ≤ n → StatAS e) := by
  intro n
  induction n using Nat.strong_induction_on with
  | _ n ih =>
  refine ⟨?_, ?_, ?_⟩
  · -- primaries
    intro p hsz
    cases p with
    | num ds =>
      intro ws fuel buf pos nx rest hwss hwf hfuel hstop hdrop
      simp only [renderPS] at hdrop
      simp only [wfP] at hwf
      obtain ⟨hne, hall⟩ := wfDigits_parts hwf
      cases fuel with
      | zero => simp [fuelP] at hfuel
      | succ f =>
        have hrest := stopPS_not_garbage hstop
        refine ⟨pos + (ws.length + ds.length), ?_⟩
        simp only [parsePrimary]
        rw [peekToken_ws_digits_at ws hwss hne hall hrest
          (by simpa [List.append_assoc] using hdrop)]
        simp_arith [matchToken, nextToken, treeP, renderPS]
    | paren e =>
      simp_arith only [PrimaryE.paren.sizeOf_spec] at hsz
      have hA : StatAS e := (ih (sizeOf e) (by omega)).2.2 e le_rfl
      intro ws fuel buf pos nx rest hwss hwf hfuel hstop hdrop
      simp only [renderPS] at hdrop
      have hdrop1 : buf.drop pos = ws ++ ('(' :: (renderAS e ++ (')' :: rest))) := by
        simpa [List.append_assoc] using hdrop
      simp only [wfP] at hwf
      simp only [fuelP] at hfuel
      cases fuel with
      | zero => omega
      | succ f =>
      cases f with
      | zero => omega
      | succ g =>
        simp only [parsePrimary, parseExpression]
        rw [peekToken_ws_symbol ws
          (show (('(' : Char), TokenType.lparen) ∈ symTable by decide) hwss hdrop1]
        have hdrop2 : buf.drop (pos + (ws.length + 1)) = renderAS e ++ (')' :: rest) := by
          have h1 : buf.drop pos = (ws ++ ['(']) ++ (renderAS e ++ (')' :: rest)) := by
            simpa [List.append_assoc] using hdrop1
          have h2 := drop_chunk h1
          rw [show (ws ++ ['(']).length = ws.length + 1 from by simp] at h2
          exact h2
        obtain ⟨nx2, hparse⟩ := hA [] g buf (pos + (ws.length + 1))
          (pos + (ws.length + 1)) (')' :: rest) (by simp [wsSpaces])
          hwf (by omega) (Or.inr ⟨rest, rfl⟩) (by simpa using hdrop2)
        simp only [matchToken, nextToken, decide_eq_true_eq, if_false, if_true,
          reduceCtorEq, reduceIte]
        rw [hparse]
        have hdrop3 : buf.drop (pos + (ws.length + 1) + List.length ([] : List Char) +
            (renderAS e).length) = ')' :: rest := by
          rw [show pos + (ws.length + 1) + List.length ([] : List Char) +
            (renderAS e).length = pos + (ws.length + 1) + (renderAS e).length from by simp]
          exact drop_chunk hdrop2
        rw [peekToken_symbol
          (show ((')' : Char), TokenType.rparen) ∈ symTable by decide) hdrop3]
        refine ⟨pos + (ws.length + 1) + List.length ([] : List Char) +
          (renderAS e).length + 1, ?_⟩
        simp only [reduceCtorEq, reduceIte, ne_eq, not_true_eq_false, if_false]
        simp_arith [nextToken, treeP, renderPS]
  · -- multiplicative chains
    intro m hsz
    cases m with
    | one p =>
      simp_arith only [MulE.one.sizeOf_spec] at hsz
      have hP : StatPS p := (ih (sizeOf p) (by omega)).1 p le_rfl
      intro ws fuel buf pos nx rest hwss hwf hfuel hstop hdrop
      simp only [renderMS] at hdrop
      simp only [wfM] at hwf
      simp only [fuelM] at hfuel
      cases fuel with
      | zero => omega
      | succ f =>
        simp only [parseMultiplicativeExpression]
        obtain ⟨nx2, hp⟩ := hP ws f buf pos nx rest hwss hwf (by omega)
          (stopM_stopPS hstop) hdrop
        rw [hp]
        have hdrop2 : buf.drop (pos + ws.length + (renderPS p).length) = rest := by
          have h1 : buf.drop pos = (ws ++ renderPS p) ++ rest := by
            simpa [List.append_assoc] using hdrop
          have h2 := drop_chunk h1
          rw [List.length_append, ← Nat.add_assoc] at h2
          exact h2
        obtain ⟨nx3, tok, hpeek, hmf⟩ := stopMS_peekS hstop hdrop2
        rw [hpeek, hmf]
        refine ⟨nx3, ?_⟩
        simp [treeM, renderMS]
    | two p q =>
      simp_arith only [MulE.two.sizeOf_spec] at hsz
      have hPp : StatPS p := (ih (sizeOf p) (by omega)).1 p le_rfl
      have hPq : StatPS q := (ih (sizeOf q) (by omega)).1 q le_rfl
      intro ws fuel buf pos nx rest hwss hwf hfuel hstop hdrop
      simp only [renderMS] at hdrop
      have hd1 : buf.drop pos =
          ws ++ (renderPS p ++ (' ' :: '*' :: (' ' :: (renderPS q ++ rest)))) := by
        simpa [List.append_assoc] using hdrop
      simp only [wfM, Bool.and_eq_true] at hwf
      simp only [fuelM] at hfuel
      cases fuel with
      | zero => omega
      | succ f =>
        simp only [parseMultiplicativeExpression]
        obtain ⟨nx2, hp⟩ := hPp ws f buf pos nx
          (' ' :: '*' :: (' ' :: (renderPS q ++ rest)))
          hwss hwf.1 (by omega) (stopP_starS _) hd1
        rw [hp]
        have hd2 : buf.drop (pos + ws.length + (renderPS p).length) =
            ' ' :: '*' :: (' ' :: (renderPS q ++ rest)) := by
          have h1 : buf.drop pos = (ws ++ renderPS p) ++
              (' ' :: '*' :: (' ' :: (renderPS q ++ rest))) := by
            simpa [List.append_assoc] using hd1
          have h2 := drop_chunk h1
          rw [List.length_append, ← Nat.add_assoc] at h2
          exact h2
        rw [peekToken_ws_symbol [' ']
          (show (('*' : Char), TokenType.mul) ∈ symTable by decide) (by decide) hd2]
        rw [matchFactor_star]
        simp only [nextToken, reduceIte]
        have hd3 : buf.drop (pos + ws.length + (renderPS p).length +
            (List.length [' '] + 1)) = [' '] ++ (renderPS q ++ rest) := by
          rw [show pos + ws.length + (renderPS p).length + (List.length [' '] + 1) =
            pos + ws.length + (renderPS p).length + 1 + 1 from by simp_arith]
          exact drop_cons (drop_cons hd2)
        obtain ⟨nx3, hq⟩ := hPq [' '] f buf
          (pos + ws.length + (renderPS p).length + (List.length [' '] + 1))
          (pos + ws.length + (renderPS p).length + (List.length [' '] + 1))
          rest (by decide) hwf.2 (by omega) (stopM_stopPS hstop) hd3
        rw [hq]
        have hd4 : buf.drop (pos + ws.length + (renderPS p).length +
            (List.length [' '] + 1) + List.length [' '] + (renderPS q).length) =
            rest := by
          rw [show pos + ws.length + (renderPS p).length + (List.length [' '] + 1) +
            List.length [' '] + (renderPS q).length =
            pos + ws.length + (renderPS p).length + 1 + 1 + 1 + (renderPS q).length
            from by simp_arith]
          exact drop_chunk (drop_cons (drop_cons (drop_cons hd2)))
        obtain ⟨nx4, tok2, hpeek2, hmf2⟩ := stopMS_peekS hstop hd4
        rw [hpeek2, hmf2]
        refine ⟨nx4, ?_⟩
        simp_arith [treeM, renderMS, List.length_append]
    | three p q r =>
      simp_arith only [MulE.three.sizeOf_spec] at hsz
      have hPp : StatPS p := (ih (sizeOf p) (by omega)).1 p le_rfl
      have hPq : StatPS q := (ih (sizeOf q) (by omega)).1 q le_rfl
      have hMr : StatMS (.one r) := by
        refine (ih (sizeOf (MulE.one r)) ?_).2.1 (.one r) le_rfl
        have h1 := sizeOfP_pos p
        have h2 := sizeOfP_pos q
        simp_arith only [MulE.one.sizeOf_spec]
        omega
      intro ws fuel buf pos nx rest hwss hwf hfuel hstop hdrop
      simp only [renderMS] at hdrop
      have hd1 : buf.drop pos = ws ++ (renderPS p ++ (' ' :: '*' ::
          (' ' :: (renderPS q ++ (' ' :: '*' :: (' ' :: (renderPS r ++ rest))))))) := by
        simpa [List.append_assoc] using hdrop
      simp only [wfM, Bool.and_eq_true] at hwf
      simp only [fuelM] at hfuel
      cases fuel with
      | zero => omega
      | succ f =>
        simp only [parseMultiplicativeExpression]
        obtain ⟨nx2, hp⟩ := hPp ws f buf pos nx
          (' ' :: '*' :: (' ' :: (renderPS q ++
            (' ' :: '*' :: (' ' :: (renderPS r ++ rest))))))
          hwss hwf.1.1 (by omega) (stopP_starS _) hd1
        rw [hp]
        have hd2 : buf.drop (pos + ws.length + (renderPS p).length) =
            ' ' :: '*' :: (' ' :: (renderPS q ++
              (' ' :: '*' :: (' ' :: (renderPS r ++ rest))))) := by
          have h1 : buf.drop pos = (ws ++ renderPS p) ++ (' ' :: '*' ::
              (' ' :: (renderPS q ++
                (' ' :: '*' :: (' ' :: (renderPS r ++ rest)))))) := by
            simpa [List.append_assoc] using hd1
          have h2 := drop_chunk h1
          rw [List.length_append, ← Nat.add_assoc] at h2
          exact h2
        rw [peekToken_ws_symbol [' ']
          (show (('*' : Char), TokenType.mul) ∈ symTable by decide) (by decide) hd2]
        rw [matchFactor_star]
        simp only [nextToken, reduceIte]
        have hd3 : buf.drop (pos + ws.length + (renderPS p).length +
            (List.length [' '] + 1)) = [' '] ++ (renderPS q ++
              (' ' :: '*' :: (' ' :: (renderPS r ++ rest)))) := by
          rw [show pos + ws.length + (renderPS p).length + (List.length [' '] + 1) =
            pos + ws.length + (renderPS p).length + 1 + 1 from by simp_arith]
          exact drop_cons (drop_cons hd2)
        obtain ⟨nx3, hq⟩ := hPq [' '] f buf
          (pos + ws.length + (renderPS p).length + (List.length [' '] + 1))
          (pos + ws.length + (renderPS p).length + (List.length [' '] + 1))
          (' ' :: '*' :: (' ' :: (renderPS r ++ rest)))
          (by decide) hwf.1.2 (by omega) (stopP_starS _) hd3
        rw [hq]
        have hd4 : buf.drop (pos + ws.length + (renderPS p).length +
            (List.length [' '] + 1) + List.length [' '] + (renderPS q).length) =
            ' ' :: '*' :: (' ' :: (renderPS r ++ rest)) := by
          rw [show pos + ws.length + (renderPS p).length + (List.length [' '] + 1) +
            List.length [' '] + (renderPS q).length =
            pos + ws.length + (renderPS p).length + 1 + 1 + 1 + (renderPS q).length
            from by simp_arith]
          exact drop_chunk (drop_cons (drop_cons (drop_cons hd2)))
        rw [peekToken_ws_symbol [' ']
          (show (('*' : Char), TokenType.mul) ∈ symTable by decide) (by decide) hd4]
        rw [matchFactor_star]
        simp only [nextToken, reduceIte]
        have hd5 : buf.drop (pos + ws.length + (renderPS p).length +
            (List.length [' '] + 1) + List.length [' '] + (renderPS q).length +
            (List.length [' '] + 1)) = [' '] ++ (renderMS (MulE.one r) ++ rest) := by
          rw [show pos + ws.length + (renderPS p).length + (List.length [' '] + 1) +
            List.length [' '] + (renderPS q).length + (List.length [' '] + 1) =
            pos + ws.length + (renderPS p).length + 1 + 1 + 1 + (renderPS q).length +
              1 + 1 from by simp_arith]
          have h := drop_cons (drop_cons hd4)
          simpa [renderMS] using h
        obtain ⟨nx4, hr⟩ := hMr [' '] f buf
          (pos + ws.length + (renderPS p).length + (List.length [' '] + 1) +
            List.length [' '] + (renderPS q).length + (List.length [' '] + 1))
          (pos + ws.length + (renderPS p).length + (List.length [' '] + 1) +
            List.length [' '] + (renderPS q).length + (List.length [' '] + 1))
          rest (by decide) (by simp [wfM, hwf.2]) (by simp only [fuelM]; omega)
          hstop hd5
        rw [hr]
        refine ⟨nx4, ?_⟩
        simp_arith [treeM, renderMS, List.length_append]
  · -- additive chains
    intro e hsz
    cases e with
    | one m =>
      simp_arith only [AddE.one.sizeOf_spec] at hsz
      have hM : StatMS m := (ih (sizeOf m) (by omega)).2.1 m le_rfl
      intro ws fuel buf pos nx rest hwss hwf hfuel hstop hdrop
      simp only [renderAS] at hdrop
      simp only [wfA] at hwf
      simp only [fuelA] at hfuel
      cases fuel with
      | zero => omega
      | succ f =>
        simp only [parseAdditiveExpression]
        obtain ⟨nx2, hm⟩ := hM ws f buf pos nx rest hwss hwf (by omega)
          (stopA_stopMS hstop) hdrop
        rw [hm]
        have hdrop2 : buf.drop (pos + ws.length + (renderMS m).length) = rest := by
          have h1 : buf.drop pos = (ws ++ renderMS m) ++ rest := by
            simpa [List.append_assoc] using hdrop
          have h2 := drop_chunk h1
          rw [List.length_append, ← Nat.add_assoc] at h2
          exact h2
        obtain ⟨nx3, tok, hpeek, hmt, _⟩ := stopAS_peekS hstop hdrop2
        rw [hpeek, hmt]
        refine ⟨nx3, ?_⟩
        simp [treeA, renderAS]
    | two op m k =>
      simp_arith only [AddE.two.sizeOf_spec] at hsz
      have hMm : StatMS m := (ih (sizeOf m) (by omega)).2.1 m le_rfl
      have hMk : StatMS k := (ih (sizeOf k) (by omega)).2.1 k le_rfl
      intro ws fuel buf pos nx rest hwss hwf hfuel hstop hdrop
      simp only [renderAS] at hdrop
      have hd1 : buf.drop pos =
          ws ++ (renderMS m ++ (' ' :: op.ch :: (' ' :: (renderMS k ++ rest)))) := by
        simpa [List.append_assoc] using hdrop
      simp only [wfA, Bool.and_eq_true] at hwf
      simp only [fuelA] at hfuel
      cases fuel with
      | zero => omega
      | succ f =>
        simp only [parseAdditiveExpression]
        obtain ⟨nx2, hm⟩ := hMm ws f buf pos nx
          (' ' :: op.ch :: (' ' :: (renderMS k ++ rest)))
          hwss hwf.1 (by omega) (stopM_opS op _) hd1
        rw [hm]
        have hd2 : buf.drop (pos + ws.length + (renderMS m).length) =
            ' ' :: op.ch :: (' ' :: (renderMS k ++ rest)) := by
          have h1 : buf.drop pos = (ws ++ renderMS m) ++
              (' ' :: op.ch :: (' ' :: (renderMS k ++ rest))) := by
            simpa [List.append_assoc] using hd1
          have h2 := drop_chunk h1
          rw [List.length_append, ← Nat.add_assoc] at h2
          exact h2
        rw [peekToken_ws_symbol [' '] (termOp_mem_symTable op) (by decide) hd2]
        rw [matchTerm_op op]
        simp only [nextToken, reduceIte]
        have hd3 : buf.drop (pos + ws.length + (renderMS m).length +
            (List.length [' '] + 1)) = [' '] ++ (renderMS k ++ rest) := by
          rw [show pos + ws.length + (renderMS m).length + (List.length [' '] + 1) =
            pos + ws.length + (renderMS m).length + 1 + 1 from by simp_arith]
          exact drop_cons (drop_cons hd2)
        obtain ⟨nx3, hk⟩ := hMk [' '] f buf
          (pos + ws.length + (renderMS m).length + (List.length [' '] + 1))
          (pos + ws.length + (renderMS m).length + (List.length [' '] + 1))
          rest (by decide) hwf.2 (by omega) (stopA_stopMS hstop) hd3
        rw [hk]
        have hd4 : buf.drop (pos + ws.length + (renderMS m).length +
            (List.length [' '] + 1) + List.length [' '] + (renderMS k).length) =
            rest := by
          rw [show pos + ws.length + (renderMS m).length + (List.length [' '] + 1) +
            List.length [' '] + (renderMS k).length =
            pos + ws.length + (renderMS m).length + 1 + 1 + 1 + (renderMS k).length
            from by simp_arith]
          exact drop_chunk (drop_cons (drop_cons (drop_cons hd2)))
        obtain ⟨nx4, tok2, hpeek2, hmt2, _⟩ := stopAS_peekS hstop hd4
        rw [hpeek2, hmt2]
        refine ⟨nx4, ?_⟩
        simp_arith [treeA, renderAS, List.length_append]
    | three op1 op2 m k j =>
      simp_arith only [AddE.three.sizeOf_spec] at hsz
      have hMm : StatMS m := (ih (sizeOf m) (by omega)).2.1 m le_rfl
      have hMk : StatMS k := (ih (sizeOf k) (by omega)).2.1 k le_rfl
      have hAj : StatAS (.one j) := by
        refine (ih (sizeOf (AddE.one j)) ?_).2.2 (.one j) le_rfl
        have h1 := sizeOfM_pos m
        have h2 := sizeOfM_pos k
        simp_arith only [AddE.one.sizeOf_spec]
        omega
      intro ws fuel buf pos nx rest hwss hwf hfuel hstop hdrop
      simp only [renderAS] at hdrop
      have hd1 : buf.drop pos = ws ++ (renderMS m ++ (' ' :: op1.ch ::
          (' ' :: (renderMS k ++ (' ' :: op2.ch :: (' ' :: (renderMS j ++ rest))))))) := by
        simpa [List.append_assoc] using hdrop
      simp only [wfA, Bool.and_eq_true] at hwf
      simp only [fuelA] at hfuel
      cases fuel with
      | zero => omega
      | succ f =>
        simp only [parseAdditiveExpression]
        obtain ⟨nx2, hm⟩ := hMm ws f buf pos nx
          (' ' :: op1.ch :: (' ' :: (renderMS k ++
            (' ' :: op2.ch :: (' ' :: (renderMS j ++ rest))))))
          hwss hwf.1.1 (by omega) (stopM_opS op1 _) hd1
        rw [hm]
        have hd2 : buf.drop (pos + ws.length + (renderMS m).length) =
            ' ' :: op1.ch :: (' ' :: (renderMS k ++
              (' ' :: op2.ch :: (' ' :: (renderMS j ++ rest))))) := by
          have h1 : buf.drop pos = (ws ++ renderMS m) ++ (' ' :: op1.ch ::
              (' ' :: (renderMS k ++
                (' ' :: op2.ch :: (' ' :: (renderMS j ++ rest)))))) := by
            simpa [List.append_assoc] using hd1
          have h2 := drop_chunk h1
          rw [List.length_append, ← Nat.add_assoc] at h2
          exact h2
        rw [peekToken_ws_symbol [' '] (termOp_mem_symTable op1) (by decide) hd2]
        rw [matchTerm_op op1]
        simp only [nextToken, reduceIte]
        have hd3 : buf.drop (pos + ws.length + (renderMS m).length +
            (List.length [' '] + 1)) = [' '] ++ (renderMS k ++
              (' ' :: op2.ch :: (' ' :: (renderMS j ++ rest)))) := by
          rw [show pos + ws.length + (renderMS m).length + (List.length [' '] + 1) =
            pos + ws.length + (renderMS m).length + 1 + 1 from by simp_arith]
          exact drop_cons (drop_cons hd2)
        obtain ⟨nx3, hk⟩ := hMk [' '] f buf
          (pos + ws.length + (renderMS m).length + (List.length [' '] + 1))
          (pos + ws.length + (renderMS m).length + (List.length [' '] + 1))
          (' ' :: op2.ch :: (' ' :: (renderMS j ++ rest)))
          (by decide) hwf.1.2 (by omega) (stopM_opS op2 _) hd3
        rw [hk]
        have hd4 : buf.drop (pos + ws.length + (renderMS m).length +
            (List.length [' '] + 1) + List.length [' '] + (renderMS k).length) =
            ' ' :: op2.ch :: (' ' :: (renderMS j ++ rest)) := by
          rw [show pos + ws.length + (renderMS m).length + (List.length [' '] + 1) +
            List.length [' '] + (renderMS k).length =
            pos + ws.length + (renderMS m).length + 1 + 1 + 1 + (renderMS k).length
            from by simp_arith]
          exact drop_chunk (drop_cons (drop_cons (drop_cons hd2)))
        rw [peekToken_ws_symbol [' '] (termOp_mem_symTable op2) (by decide) hd4]
        rw [matchTerm_op op2]
        simp only [nextToken, reduceIte]
        have hd5 : buf.drop (pos + ws.length + (renderMS m).length +
            (List.length [' '] + 1) + List.length [' '] + (renderMS k).length +
            (List.length [' '] + 1)) = [' '] ++ (renderAS (AddE.one j) ++ rest) := by
          rw [show pos + ws.length + (renderMS m).length + (List.length [' '] + 1) +
            List.length [' '] + (renderMS k).length + (List.length [' '] + 1) =
            pos + ws.length + (renderMS m).length + 1 + 1 + 1 + (renderMS k).length +
              1 + 1 from by simp_arith]
          have h := drop_cons (drop_cons hd4)
          simpa [renderAS] using h
        obtain ⟨nx4, hj⟩ := hAj [' '] f buf
          (pos + ws.length + (renderMS m).length + (List.length [' '] + 1) +
            List.length [' '] + (renderMS k).length + (List.length [' '] + 1))
          (pos + ws.length + (renderMS m).length + (List.length [' '] + 1) +
            List.length [' '] + (renderMS k).length + (List.length [' '] + 1))
          rest (by decide) (by simp [wfA, hwf.2]) (by simp only [fuelA]; omega)
          hstop hd5
        rw [hj]
        refine ⟨nx4, ?_⟩
        simp_arith [treeA, renderAS, List.length_append]

/-- The fuel measures are dominated by the spaced rendered length too. -/
theorem fuelBoundS : ∀ n : Nat,
    (∀ p : PrimaryE, sizeOf p ≤ n → fuelP p ≤ 5 * (renderPS p).length + 3) ∧
    (∀ m : MulE, sizeOf m ≤ n → fuelM m ≤ 5 * (renderMS m).length + 4) ∧
    (∀ e : AddE, sizeOf e ≤ n → fuelA e ≤ 5 * (renderAS e).length + 5) := by
  intro n
  induction n using Nat.strong_induction_on with
  | _ n ih =>
  refine ⟨?_, ?_, ?_⟩
  · intro p hsz
    cases p with
    | num ds => simp only [fuelP]; omega
    | paren e =>
      simp_arith only [PrimaryE.paren.sizeOf_spec] at hsz
      have h := (ih (sizeOf e) (by omega)).2.2 e le_rfl
      simp only [fuelP, renderPS, List.length_cons, List.length_append,
        List.length_nil]
      omega
  · intro m hsz
    cases m with
    | one p =>
      simp_arith only [MulE.one.sizeOf_spec] at hsz
      have h := (ih (sizeOf p) (by omega)).1 p le_rfl
      simp only [fuelM, renderMS]
      omega
    | two p q =>
      simp_arith only [MulE.two.sizeOf_spec] at hsz
      have h1 := (ih (sizeOf p) (by omega)).1 p le_rfl
      have h2 := (ih (sizeOf q) (by omega)).1 q le_rfl
      simp only [fuelM, renderMS, List.length_append, List.length_cons]
      omega
    | three p q r =>
      simp_arith only [MulE.three.sizeOf_spec] at hsz
      have h1 := (ih (sizeOf p) (by omega)).1 p le_rfl
      have h2 := (ih (sizeOf q) (by omega)).1 q le_rfl
      have h3 := (ih (sizeOf r) (by omega)).1 r le_rfl
      simp only [fuelM, renderMS, List.length_append, List.length_cons]
      omega
  · intro e hsz
    cases e with
    | one m =>
      simp_arith only [AddE.one.sizeOf_spec] at hsz
      have h := (ih (sizeOf m) (by omega)).2.1 m le_rfl
      simp only [fuelA, renderAS]
      omega
    | two op m k =>
      simp_arith only [AddE.two.sizeOf_spec] at hsz
      have h1 := (ih (sizeOf m) (by omega)).2.1 m le_rfl
      have h2 := (ih (sizeOf k) (by omega)).2.1 k le_rfl
      simp only [fuelA, renderAS, List.length_append, List.length_cons]
      omega
    | three op1 op2 m k j =>
      simp_arith only [AddE.three.sizeOf_spec] at hsz
      have h1 := (ih (sizeOf m) (by omega)).2.1 m le_rfl
      have h2 := (ih (sizeOf k) (by omega)).2.1 k le_rfl
      have h3 := (ih (sizeOf j) (by omega)).2.1 j le_rfl
      simp only [fuelA, renderAS, List.length_append, List.length_cons]
      omega

/-- Running the pipeline front end on the spaced rendering of a
well-formed expression yields exactly the predicted tree. -/
theorem parseTopS_render (e : AddE) (hwf : wfA e = true) :
    parseExpressionTop (String.mk (renderAS e)) = treeA e := by
  have hfuel : fuelA e ≤ 5 * (renderAS e).length + 5 :=
    (fuelBoundS (sizeOf e)).2.2 e le_rfl
  have hstat : StatAS e := (parseSoundS (sizeOf e)).2.2 e le_rfl
  obtain ⟨nx2, hp⟩ := hstat [] (5 * (renderAS e).length + 5) (renderAS e) 0 0 []
    (by simp [wsSpaces]) hwf hfuel (Or.inl rfl) (by simp)
  have hl : (String.mk (renderAS e)).length = (renderAS e).length := rfl
  have heq : fuelFor (String.mk (renderAS e)) = 5 * (renderAS e).length + 5 + 1 := by
    unfold fuelFor
    rw [hl]
  unfold parseExpressionTop runParse initScanner
  rw [heq]
  simp only [parseExpression]
  show (parseAdditiveExpression (5 * (renderAS e).length + 5)
    ⟨renderAS e, 0, 0⟩).1 = treeA e
  rw [hp]

/-- Spaced analogue of the evaluation corollary: the pipeline on the
spaced rendering of a well-formed expression computes its mathematical
value reduced into the 64-bit unsigned domain. -/
theorem evalStringS_render (e : AddE) (hwf : wfA e = true) :
    evalString (String.mk (renderAS e)) = intVal (valA e) := by
  unfold evalString
  rw [parseTopS_render e hwf]
  exact (evalSound (sizeOf e)).2.2 e le_rfl hwf

set_option maxHeartbeats 1000000 in
/-- Four operands joined by spaced same-precedence additive operators
parse to the pair of the first two operands combined with the pair of the
last two: `d1 op1 d2 op2 d3 op3 d4` becomes
`(d1 op1 d2) op2 (d3 op3 d4)`. -/
theorem parse4S (o1 o2 o3 : TermOp) (d1 d2 d3 d4 : List Char)
    (h1 : wfDigits d1 = true) (h2 : wfDigits d2 = true)
    (h3 : wfDigits d3 = true) (h4 : wfDigits d4 = true) :
    parseExpressionTop (String.mk (d1 ++ ' ' :: o1.ch :: ' ' :: d2 ++
        ' ' :: o2.ch :: ' ' :: d3 ++ ' ' :: o3.ch :: ' ' :: d4)) =
      .binary o2.tt
        (.binary o1.tt (.literal ⟨String.mk d1, .integer⟩)
          (.literal ⟨String.mk d2, .integer⟩))
        (.binary o3.tt (.literal ⟨String.mk d3, .integer⟩)
          (.literal ⟨String.mk d4, .integer⟩)) := by
  obtain ⟨hne1, -⟩ := wfDigits_parts h1
  obtain ⟨l, hl⟩ : ∃ l : List Char, l = d1 ++ ' ' :: o1.ch :: ' ' :: d2 ++
      ' ' :: o2.ch :: ' ' :: d3 ++ ' ' :: o3.ch :: ' ' :: d4 := ⟨_, rfl⟩
  rw [← hl]
  have hlen1 : 1 ≤ l.length := by
    rw [hl]
    simp only [List.length_append, List.length_cons]
    have := List.length_pos.mpr hne1
    omega
  have hM1 : StatMS (.one (.num d1)) := (parseSoundS _).2.1 _ le_rfl
  have hM2 : StatMS (.one (.num d2)) := (parseSoundS _).2.1 _ le_rfl
  have hA34 : StatAS (.two o3 (.one (.num d3)) (.one (.num d4))) :=
    (parseSoundS _).2.2 _ le_rfl
  unfold parseExpressionTop runParse initScanner
  obtain ⟨F, hF5, hfe⟩ : ∃ F, 5 ≤ F ∧ fuelFor (String.mk l) = F + 1 + 1 := by
    refine ⟨5 * l.length + 4, by omega, ?_⟩
    unfold fuelFor
    show 5 * l.length + 6 = _
    omega
  rw [hfe]
  simp only [parseExpression]
  simp only [parseAdditiveExpression]
  have hdr0 : l.drop 0 = [] ++ (renderMS (MulE.one (PrimaryE.num d1)) ++
      (' ' :: o1.ch :: (' ' :: (d2 ++ (' ' :: o2.ch :: (' ' :: (d3 ++
        (' ' :: o3.ch :: (' ' :: d4)))))))))  := by
    rw [hl]
    simp [renderMS, renderPS, List.append_assoc]
  obtain ⟨nxa, hp1⟩ := hM1 [] F l 0 0
    (' ' :: o1.ch :: (' ' :: (d2 ++ (' ' :: o2.ch :: (' ' :: (d3 ++
      (' ' :: o3.ch :: (' ' :: d4))))))))
    (by simp [wsSpaces]) (by simp [wfM, wfP, h1])
    (by simp only [fuelM, fuelP]; omega) (stopM_opS o1 _) hdr0
  rw [hp1]
  have hd1 : l.drop (0 + List.length ([] : List Char) +
      (renderMS (MulE.one (PrimaryE.num d1))).length) =
      ' ' :: o1.ch :: (' ' :: (d2 ++ (' ' :: o2.ch :: (' ' :: (d3 ++
        (' ' :: o3.ch :: (' ' :: d4))))))) := by
    rw [show 0 + List.length ([] : List Char) +
      (renderMS (MulE.one (PrimaryE.num d1))).length =
      0 + (renderMS (MulE.one (PrimaryE.num d1))).length from by simp]
    exact drop_chunk (by simpa using hdr0)
  rw [peekToken_ws_symbol [' '] (termOp_mem_symTable o1) (by decide) hd1]
  rw [matchTerm_op o1]
  simp only [nextToken, reduceIte]
  have hdr1 : l.drop (0 + List.length ([] : List Char) +
      (renderMS (MulE.one (PrimaryE.num d1))).length + (List.length [' '] + 1)) =
      [' '] ++ (renderMS (MulE.one (PrimaryE.num d2)) ++
        (' ' :: o2.ch :: (' ' :: (d3 ++ (' ' :: o3.ch :: (' ' :: d4)))))) := by
    rw [show 0 + List.length ([] : List Char) +
      (renderMS (MulE.one (PrimaryE.num d1))).length + (List.length [' '] + 1) =
      0 + (renderMS (MulE.one (PrimaryE.num d1))).length + 1 + 1 from by simp_arith]
    have h := drop_cons (drop_cons (by simpa using hd1))
    simpa [renderMS, renderPS] using h
  obtain ⟨nxb, hp2⟩ := hM2 [' '] F l
    (0 + List.length ([] : List Char) +
      (renderMS (MulE.one (PrimaryE.num d1))).length + (List.length [' '] + 1))
    (0 + List.length ([] : List Char) +
      (renderMS (MulE.one (PrimaryE.num d1))).length + (List.length [' '] + 1))
    (' ' :: o2.ch :: (' ' :: (d3 ++ (' ' :: o3.ch :: (' ' :: d4)))))
    (by decide) (by simp [wfM, wfP, h2])
    (by simp only [fuelM, fuelP]; omega) (stopM_opS o2 _) hdr1
  rw [hp2]
  have hd2 : l.drop (0 + List.length ([] : List Char) +
      (renderMS (MulE.one (PrimaryE.num d1))).length + (List.length [' '] + 1) +
      List.length [' '] + (renderMS (MulE.one (PrimaryE.num d2))).length) =
      ' ' :: o2.ch :: (' ' :: (d3 ++ (' ' :: o3.ch :: (' ' :: d4)))) := by
    have hflat : l.drop (0 + List.length ([] : List Char) +
        (renderMS (MulE.one (PrimaryE.num d1))).length + (List.length [' '] + 1)) =
        ([' '] ++ renderMS (MulE.one (PrimaryE.num d2))) ++
          (' ' :: o2.ch :: (' ' :: (d3 ++ (' ' :: o3.ch :: (' ' :: d4))))) := by
      simpa [List.append_assoc] using hdr1
    have h := drop_chunk hflat
    rw [List.length_append, ← Nat.add_assoc] at h
    exact h
  rw [peekToken_ws_symbol [' '] (termOp_mem_symTable o2) (by decide) hd2]
  rw [matchTerm_op o2]
  simp only [nextToken, reduceIte]
  have hdr2 : l.drop (0 + List.length ([] : List Char) +
      (renderMS (MulE.one (PrimaryE.num d1))).length + (List.length [' '] + 1) +
      List.length [' '] + (renderMS (MulE.one (PrimaryE.num d2))).length +
      (List.length [' '] + 1)) =
      [' '] ++ (renderAS (AddE.two o3 (.one (.num d3)) (.one (.num d4))) ++ []) := by
    rw [show 0 + List.length ([] : List Char) +
      (renderMS (MulE.one (PrimaryE.num d1))).length + (List.length [' '] + 1) +
      List.length [' '] + (renderMS (MulE.one (PrimaryE.num d2))).length +
      (List.length [' '] + 1) =
      0 + List.length ([] : List Char) +
      (renderMS (MulE.one (PrimaryE.num d1))).length + (List.length [' '] + 1) +
      List.length [' '] + (renderMS (MulE.one (PrimaryE.num d2))).length + 1 + 1
      from by simp_arith]
    have h := drop_cons (drop_cons hd2)
    simpa [renderAS, renderMS, renderPS, List.append_assoc] using h
  obtain ⟨nxc, hp3⟩ := hA34 [' '] F l
    (0 + List.length ([] : List Char) +
      (renderMS (MulE.one (PrimaryE.num d1))).length + (List.length [' '] + 1) +
      List.length [' '] + (renderMS (MulE.one (PrimaryE.num d2))).length +
      (List.length [' '] + 1))
    (0 + List.length ([] : List Char) +
      (renderMS (MulE.one (PrimaryE.num d1))).length + (List.length [' '] + 1) +
      List.length [' '] + (renderMS (MulE.one (PrimaryE.num d2))).length +
      (List.length [' '] + 1))
    [] (by decide) (by simp [wfA, wfM, wfP, h3, h4])
    (by simp only [fuelA, fuelM, fuelP]; omega) (Or.inl rfl) hdr2
  rw [hp3]
  simp [treeA, treeM, treeP]


/-! ## The claims -/

/-- C1: for every well-formed expression string built from integer
literals, `+`, `-`, `*` and balanced parentheses with at most two
operators of the same precedence level in a row, evaluating the tree
returned by `parseExpression` yields the mathematically correct value of
the expression under standard left-to-right, precedence-respecting
evaluation, computed in the program's 64-bit unsigned domain: the result
is the mathematical value reduced modulo `2 ^ 64`, hence equal to the
mathematical value itself whenever that value lies in the domain. -/
theorem claim1_round_trip :
    (∀ e : AddE, wfA e = true →
      evalString (String.mk (renderA e)) = intVal (valA e)) ∧
    (∀ e : AddE, wfA e = true → 0 ≤ valA e → valA e < (TWO64 : Int) →
      (evalString (String.mk (renderA e)) : Int) = valA e) := by
  have hmain : ∀ e : AddE, wfA e = true →
      evalString (String.mk (renderA e)) = intVal (valA e) := by
    intro e hwf
    unfold evalString
    rw [parseTop_render e hwf]
    exact (evalSound (sizeOf e)).2.2 e le_rfl hwf
  refine ⟨hmain, ?_⟩
  intro e hwf h0 hlt
  rw [hmain e hwf]
  unfold intVal
  rw [Int.emod_eq_of_lt h0 hlt]
  exact Int.toNat_of_nonneg h0

/-- Witness for C1 at the concrete expression `4+3*8`. -/
theorem claim1_witness :
    evalString (String.mk (renderA (AddE.two .plus (.one (.num ['4']))
      (.two (.num ['3']) (.num ['8']))))) = 28 := by
  have h := claim1_round_trip.1 (AddE.two .plus (.one (.num ['4']))
    (.two (.num ['3']) (.num ['8']))) (by decide)
  rw [h]
  decide

set_option maxHeartbeats 1000000 in
/-- C2: a chain of three or more operands joined by same-precedence
operators is parsed as a left-associated pair of the first two operands
combined, through one binary node, with the recursively parsed remainder
of the chain: three operands give the left-associated tree
`(d1 op d2) op d3`, four operands give `(d1 op d2) op (d3 op d4)`;
concretely, `"10 - 2 - 3"` parses to `((10-2)-3)` evaluating to 5 and
`"1 - 2 - 3 - 4"` parses to `((1-2)-(3-4))` evaluating to 0. -/
theorem claim2_chain_grouping :
    (∀ (o1 o2 : TermOp) (d1 d2 d3 : List Char),
      wfDigits d1 = true → wfDigits d2 = true → wfDigits d3 = true →
      parseExpressionTop (String.mk (d1 ++ o1.ch :: d2 ++ o2.ch :: d3)) =
        .binary o2.tt
          (.binary o1.tt (.literal ⟨String.mk d1, .integer⟩)
            (.literal ⟨String.mk d2, .integer⟩))
          (.literal ⟨String.mk d3, .integer⟩)) ∧
    (∀ (o1 o2 o3 : TermOp) (d1 d2 d3 d4 : List Char),
      wfDigits d1 = true → wfDigits d2 = true → wfDigits d3 = true →
      wfDigits d4 = true →
      parseExpressionTop (String.mk (d1 ++ o1.ch :: d2 ++ o2.ch :: d3 ++ o3.ch :: d4)) =
        .binary o2.tt
          (.binary o1.tt (.literal ⟨String.mk d1, .integer⟩)
            (.literal ⟨String.mk d2, .integer⟩))
          (.binary o3.tt (.literal ⟨String.mk d3, .integer⟩)
            (.literal ⟨String.mk d4, .integer⟩))) ∧
    parseExpressionTop "10 - 2 - 3" =
      .binary .minus
        (.binary .minus (.literal ⟨"10", .integer⟩) (.literal ⟨"2", .integer⟩))
        (.literal ⟨"3", .integer⟩) ∧
    evalString "10 - 2 - 3" = 5 ∧
    parseExpressionTop "1 - 2 - 3 - 4" =
      .binary .minus
        (.binary .minus (.literal ⟨"1", .integer⟩) (.literal ⟨"2", .integer⟩))
        (.binary .minus (.literal ⟨"3", .integer⟩) (.literal ⟨"4", .integer⟩)) ∧
    evalString "1 - 2 - 3 - 4" = 0 := by
  have hc3 : parseExpressionTop "10 - 2 - 3" =
      .binary .minus
        (.binary .minus (.literal ⟨"10", .integer⟩) (.literal ⟨"2", .integer⟩))
        (.literal ⟨"3", .integer⟩) := by
    have h := parseTopS_render (AddE.three .minus .minus (.one (.num ['1', '0']))
      (.one (.num ['2'])) (.one (.num ['3']))) (by decide)
    rw [show ("10 - 2 - 3" : String) = String.mk (renderAS
      (AddE.three .minus .minus (.one (.num ['1', '0']))
        (.one (.num ['2'])) (.one (.num ['3'])))) from rfl, h]
    rfl
  have hc4 : parseExpressionTop "1 - 2 - 3 - 4" =
      .binary .minus
        (.binary .minus (.literal ⟨"1", .integer⟩) (.literal ⟨"2", .integer⟩))
        (.binary .minus (.literal ⟨"3", .integer⟩) (.literal ⟨"4", .integer⟩)) := by
    have h := parse4S .minus .minus .minus ['1'] ['2'] ['3'] ['4']
      (by decide) (by decide) (by decide) (by decide)
    rw [show ("1 - 2 - 3 - 4" : String) = String.mk (['1'] ++
      ' ' :: TermOp.minus.ch :: ' ' :: ['2'] ++ ' ' :: TermOp.minus.ch :: ' ' :: ['3'] ++
      ' ' :: TermOp.minus.ch :: ' ' :: ['4']) from rfl, h]
    rfl
  refine ⟨?_, ?_, hc3, ?_, hc4, ?_⟩
  · intro o1 o2 d1 d2 d3 h1 h2 h3
    have h := parseTop_render
      (AddE.three o1 o2 (.one (.num d1)) (.one (.num d2)) (.one (.num d3)))
      (by simp [wfA, wfM, wfP, h1, h2, h3])
    simpa [renderA, renderM, renderP, treeA, treeM, treeP] using h
  · intro o1 o2 o3 d1 d2 d3 d4 h1 h2 h3 h4
    obtain ⟨hne1, -⟩ := wfDigits_parts h1
    obtain ⟨l, hl⟩ :
        ∃ l : List Char, l = d1 ++ o1.ch :: d2 ++ o2.ch :: d3 ++ o3.ch :: d4 :=
      ⟨_, rfl⟩
    rw [← hl]
    have hlen1 : 1 ≤ l.length := by
      rw [hl]
      simp only [List.length_append, List.length_cons]
      have := List.length_pos.mpr hne1
      omega
    have hM1 : StatM (.one (.num d1)) := (parseSound _).2.1 _ le_rfl
    have hM2 : StatM (.one (.num d2)) := (parseSound _).2.1 _ le_rfl
    have hA34 : StatA (.two o3 (.one (.num d3)) (.one (.num d4))) :=
      (parseSound _).2.2 _ le_rfl
    unfold parseExpressionTop runParse initScanner
    obtain ⟨F, hF5, hfe⟩ : ∃ F, 5 ≤ F ∧ fuelFor (String.mk l) = F + 1 + 1 := by
      refine ⟨5 * l.length + 4, by omega, ?_⟩
      unfold fuelFor
      show 5 * l.length + 6 = _
      omega
    rw [hfe]
    simp only [parseExpression]
    simp only [parseAdditiveExpression]
    have hdr0 : l.drop 0 = renderM (MulE.one (PrimaryE.num d1)) ++
        (o1.ch :: (d2 ++ (o2.ch :: (d3 ++ (o3.ch :: d4))))) := by
      rw [hl]
      simp [renderM, renderP, List.append_assoc]
    obtain ⟨nxa, hp1⟩ := hM1 F l 0 0
      (o1.ch :: (d2 ++ (o2.ch :: (d3 ++ (o3.ch :: d4)))))
      (by simp [wfM, wfP, h1]) (by simp only [fuelM, fuelP]; omega)
      (stopM_op o1 _) hdr0
    rw [hp1]
    have hd1 := drop_chunk hdr0
    rw [peekToken_symbol (termOp_mem_symTable o1) hd1]
    rw [matchTerm_op o1]
    simp only [nextToken, reduceIte]
    have hdr1 : l.drop (0 + (renderM (MulE.one (PrimaryE.num d1))).length + 1) =
        renderM (MulE.one (PrimaryE.num d2)) ++
          (o2.ch :: (d3 ++ (o3.ch :: d4))) := by
      have h := drop_cons hd1
      simpa [renderM, renderP] using h
    obtain ⟨nxb, hp2⟩ := hM2 F l
      (0 + (renderM (MulE.one (PrimaryE.num d1))).length + 1)
      (0 + (renderM (MulE.one (PrimaryE.num d1))).length + 1)
      (o2.ch :: (d3 ++ (o3.ch :: d4)))
      (by simp [wfM, wfP, h2]) (by simp only [fuelM, fuelP]; omega)
      (stopM_op o2 _) hdr1
    rw [hp2]
    have hd2 := drop_chunk hdr1
    rw [peekToken_symbol (termOp_mem_symTable o2) hd2]
    rw [matchTerm_op o2]
    simp only [nextToken, reduceIte]
    have hdr2 : l.drop (0 + (renderM (MulE.one (PrimaryE.num d1))).length + 1 +
        (renderM (MulE.one (PrimaryE.num d2))).length + 1) =
        renderA (AddE.two o3 (.one (.num d3)) (.one (.num d4))) ++ [] := by
      have h := drop_cons hd2
      simpa [renderA, renderM, renderP] using h
    obtain ⟨nxc, hp3⟩ := hA34 F l
      (0 + (renderM (MulE.one (PrimaryE.num d1))).length + 1 +
        (renderM (MulE.one (PrimaryE.num d2))).length + 1)
      (0 + (renderM (MulE.one (PrimaryE.num d1))).length + 1 +
        (renderM (MulE.one (PrimaryE.num d2))).length + 1)
      [] (by simp [wfA, wfM, wfP, h3, h4])
      (by simp only [fuelA, fuelM, fuelP]; omega) (Or.inl rfl) hdr2
    rw [hp3]
    simp [treeA, treeM, treeP]
  · have h := evalStringS_render (AddE.three .minus .minus (.one (.num ['1', '0']))
      (.one (.num ['2'])) (.one (.num ['3']))) (by decide)
    rw [show ("10 - 2 - 3" : String) = String.mk (renderAS
      (AddE.three .minus .minus (.one (.num ['1', '0']))
        (.one (.num ['2'])) (.one (.num ['3'])))) from rfl, h]
    decide
  · show evaluateConstantExpressionTree (parseExpressionTop "1 - 2 - 3 - 4") = 0
    rw [hc4]
    decide

/-- Witness for C2 at the concrete chain `1-2-3` (which also exercises
the general three-operand statement). -/
theorem claim2_witness :
    parseExpressionTop (String.mk (['1'] ++ '-' :: ['2'] ++ '-' :: ['3'])) =
      .binary .minus
        (.binary .minus (.literal ⟨String.mk ['1'], .integer⟩)
          (.literal ⟨String.mk ['2'], .integer⟩))
        (.literal ⟨String.mk ['3'], .integer⟩) :=
  claim2_chain_grouping.1 .minus .minus ['1'] ['2'] ['3']
    (by decide) (by decide) (by decide)

/-- C3: the three expressions of the `evaluations` test table evaluate
through the pipeline to 28, 56 and 108 respectively, matching the values
the C++ compiler computes for the same constant expressions. -/
theorem claim3_concrete_evaluations :
    evalString "4 + 3 * 8" = 28 ∧
    evalString "(4 + 3) * 8" = 56 ∧
    evalString "(4 + 3 * 8) + 8 * 8 + (4 * 4)" = 108 ∧
    evaluations.all (fun p => evalString p.1 == p.2) = true := by
  have ha : evalString "4 + 3 * 8" = 28 := by
    have h := evalStringS_render (AddE.two .plus (.one (.num ['4']))
      (.two (.num ['3']) (.num ['8']))) (by decide)
    rw [show ("4 + 3 * 8" : String) = String.mk (renderAS
      (AddE.two .plus (.one (.num ['4']))
        (.two (.num ['3']) (.num ['8'])))) from rfl, h]
    decide
  have hb : evalString "(4 + 3) * 8" = 56 := by
    have h := evalStringS_render (AddE.one (.two
      (.paren (AddE.two .plus (.one (.num ['4'])) (.one (.num ['3']))))
      (.num ['8']))) (by decide)
    rw [show ("(4 + 3) * 8" : String) = String.mk (renderAS
      (AddE.one (.two
        (.paren (AddE.two .plus (.one (.num ['4'])) (.one (.num ['3']))))
        (.num ['8'])))) from rfl, h]
    decide
  have hc : evalString "(4 + 3 * 8) + 8 * 8 + (4 * 4)" = 108 := by
    have h := evalStringS_render (AddE.three .plus .plus
      (.one (.paren (AddE.two .plus (.one (.num ['4']))
        (.two (.num ['3']) (.num ['8'])))))
      (.two (.num ['8']) (.num ['8']))
      (.one (.paren (AddE.one (.two (.num ['4']) (.num ['4'])))))) (by decide)
    rw [show ("(4 + 3 * 8) + 8 * 8 + (4 * 4)" : String) = String.mk (renderAS
      (AddE.three .plus .plus
        (.one (.paren (AddE.two .plus (.one (.num ['4']))
          (.two (.num ['3']) (.num ['8'])))))
        (.two (.num ['8']) (.num ['8']))
        (.one (.paren (AddE.one (.two (.num ['4']) (.num ['4'])))))))
      from rfl, h]
    decide
  refine ⟨ha, hb, hc, ?_⟩
  simp [evaluations, ha, hb, hc]

/-- C4 counterexample: the claim states that peeking on a buffer starting
with a tab or newline followed by the digit 7 returns an Integer token
with text "7"; in fact the printability check at line 73 precedes the
whitespace skip at line 79, so both buffers yield a NULL token (with a
"Bad lexical analysis stream" diagnostic). -/
theorem claim4_counterexample :
    (peekToken ⟨['\t', '7'], 0, 0⟩).1 = ⟨"", .null⟩ ∧
    (peekToken ⟨['\n', '7'], 0, 0⟩).1 = ⟨"", .null⟩ ∧
    ¬ ((peekToken ⟨['\t', '7'], 0, 0⟩).1.type = TokenType.integer ∧
       (peekToken ⟨['\t', '7'], 0, 0⟩).1.name = "7") := by
  refine ⟨by decide, by decide, by decide⟩

/-- C4 as amended: peek skips leading whitespace before classifying and
returns the following token, provided the first character of the buffer
is printable (for example a space); when the first character is
non-printable — which includes tab and newline — peek returns a NULL
token without skipping anything, because the printability check precedes
the whitespace skip. -/
theorem claim4_whitespace_amended :
    (∀ (ws ds rest : List Char) (nx : Nat),
      (∀ c ∈ ws, isspaceC c = true) →
      isprintC (headCh (ws ++ ds ++ rest)) = true →
      ds ≠ [] → (∀ c ∈ ds, beginsWithDigit c = true) →
      isGarbage (headCh rest) = false →
      peekToken ⟨ws ++ ds ++ rest, 0, nx⟩ =
        (⟨String.mk ds, .integer⟩,
          ⟨ws ++ ds ++ rest, 0, ws.length + ds.length⟩, [])) ∧
    (∀ (c : Char) (rest : List Char) (nx : Nat), isprintC c = false →
      (peekToken ⟨c :: rest, 0, nx⟩).1.type = TokenType.null) := by
  constructor
  · intro ws ds rest nx h1 h2 h3 h4 h5
    exact peekCore_ws_digits h1 h2 h3 h4 h5
  · intro c rest nx hc
    rw [peekToken_fst]
    show (peekCore (c :: rest) 0).1.type = _
    simp only [peekCore, List.drop_zero, headCh, List.headD_cons]
    by_cases h0 : c.toNat = 0
    · rw [if_pos h0]
    · rw [if_neg h0, if_pos (by simp [hc])]

/-- Witness for C4 as amended: a space followed by a tab followed by the
digit 7 peeks as the Integer token "7", while a leading tab peeks as a
NULL token. -/
theorem claim4_witness :
    peekToken ⟨[' ', '\t', '7'], 0, 0⟩ =
      (⟨String.mk ['7'], .integer⟩, ⟨[' ', '\t', '7'], 0, 3⟩, []) ∧
    (peekToken ⟨'\t' :: ['7'], 0, 0⟩).1.type = TokenType.null :=
  ⟨claim4_whitespace_amended.1 [' ', '\t'] ['7'] [] 0
      (by decide) (by decide) (by decide) (by decide) (by decide),
    claim4_whitespace_amended.2 '\t' ['7'] 0 (by decide)⟩

/-- C5: for every buffer and committed cursor position, peeking twice in
a row without an intervening advance returns two identical tokens and
leaves the committed cursor unchanged after both calls. -/
theorem claim5_peek_idempotent (s : Scanner) :
    (peekToken ((peekToken s).2.1)).1 = (peekToken s).1 ∧
    ((peekToken s).2.1).currentCharacterIndex = s.currentCharacterIndex ∧
    ((peekToken ((peekToken s).2.1)).2.1).currentCharacterIndex =
      s.currentCharacterIndex := by
  obtain ⟨hb, hc⟩ := peekToken_buffer_current s
  obtain ⟨hb2, hc2⟩ := peekToken_buffer_current ((peekToken s).2.1)
  refine ⟨?_, hc, by rw [hc2, hc]⟩
  rw [peekToken_fst ((peekToken s).2.1), peekToken_fst s, hb, hc]

/-- C6: scanning a maximal digit run immediately followed by
alphanumeric/underscore/dot garbage yields one Integer token holding only
the digit run, consumes the garbage, and prints exactly one "skipping
trailing characters" diagnostic; concretely, "123abc" scans to the
Integer token "123" with the pending cursor at 6 (past "abc"), and the
subsequent advance commits the cursor there. -/
theorem claim6_malformed_literal :
    (∀ (buf : List Char) (pos nx : Nat) (ds g rest : List Char),
      ds ≠ [] → (∀ c ∈ ds, beginsWithDigit c = true) →
      g ≠ [] → (∀ c ∈ g, isGarbage c = true) →
      beginsWithDigit (headCh g) = false →
      isGarbage (headCh rest) = false →
      buf.drop pos = ds ++ g ++ rest →
      peekToken ⟨buf, pos, nx⟩ =
        (⟨String.mk ds, .integer⟩, ⟨buf, pos, pos + (ds.length + g.length)⟩,
          [.skipTrailing])) ∧
    peekToken ⟨['1', '2', '3', 'a', 'b', 'c'], 0, 0⟩ =
      (⟨"123", .integer⟩, ⟨['1', '2', '3', 'a', 'b', 'c'], 0, 6⟩,
        [.skipTrailing]) ∧
    nextToken (peekToken ⟨['1', '2', '3', 'a', 'b', 'c'], 0, 0⟩).2.1 =
      ⟨['1', '2', '3', 'a', 'b', 'c'], 6, 6⟩ := by
  refine ⟨?_, by decide, by decide⟩
  intro buf pos nx ds g rest h1 h2 h3 h4 h5 h6 h7
  exact peekToken_garbage h1 h2 h3 h4 h5 h6 h7

/-- Witness for C6 at the concrete buffer "123abc". -/
theorem claim6_witness :
    peekToken ⟨['1', '2', '3', 'a', 'b', 'c'], 0, 0⟩ =
      (⟨String.mk ['1', '2', '3'], .integer⟩,
        ⟨['1', '2', '3', 'a', 'b', 'c'], 0, 6⟩, [.skipTrailing]) :=
  claim6_malformed_literal.1 ['1', '2', '3', 'a', 'b', 'c'] 0 0
    ['1', '2', '3'] ['a', 'b', 'c'] []
    (by decide) (by decide) (by decide) (by decide) (by decide) (by decide)
    (by decide)

set_option maxHeartbeats 2000000 in
/-- C7: parsing "(4 + 3" reports exactly the missing-right-parenthesis
diagnostic, returns a null tree rather than a partial one, and the
evaluation of the result is 0. -/
theorem claim7_unmatched_paren :
    parseExpressionTop "(4 + 3" = Tree.null ∧
    parseDiags "(4 + 3" = [Diag.expectedRParen] ∧
    evalString "(4 + 3" = 0 := by
  refine ⟨by decide, by decide, by decide⟩

set_option maxHeartbeats 2000000 in
/-- C8: the pipeline always produces an integer: a null tree evaluates
to 0, so empty input (after its reported syntax error) and whitespace-only
input evaluate to 0, and a failed subexpression is still wrapped into a
binary node with its valid sibling — the input "+ 5" parses to
`Binary('+', null, 5)` and evaluates to 5. -/
theorem claim8_total_pipeline :
    (∀ s : String, (∀ c ∈ s.data, isspaceC c = true) →
      parseExpressionTop s = Tree.null ∧ evalString s = 0) ∧
    parseExpressionTop "+ 5" =
      Tree.binary .add .null (.literal ⟨"5", .integer⟩) ∧
    evalString "+ 5" = 5 ∧
    parseDiags "" = [Diag.synError ""] ∧
    evalString "" = 0 ∧
    evaluateConstantExpressionTree Tree.null = 0 := by
  refine ⟨?_, by decide, by decide, by decide, by decide, rfl⟩
  intro s h
  have hp := parseTop_ws s h
  refine ⟨hp, ?_⟩
  unfold evalString
  rw [hp]
  rfl

/-- Witness for C8 at the whitespace-only input. -/
theorem claim8_witness :
    parseExpressionTop "   " = Tree.null ∧ evalString "   " = 0 :=
  claim8_total_pipeline.1 "   " (by decide)

/-- C9: binary nodes tagged `+`, `-`, `*` evaluate to the sum, the
difference (left minus right) and the product of their children's values
modulo `2 ^ 64`, with wraparound instead of overflow errors; in
particular, the parse of "2 - 3" evaluates to `2 ^ 64 - 1`. -/
theorem claim9_wraparound_arithmetic :
    (∀ l r : Tree,
      evaluateConstantExpressionTree (.binary .add l r) =
        (((evaluateConstantExpressionTree l : Int) +
          (evaluateConstantExpressionTree r : Int)) % (TWO64 : Int)).toNat) ∧
    (∀ l r : Tree,
      evaluateConstantExpressionTree (.binary .minus l r) =
        (((evaluateConstantExpressionTree l : Int) -
          (evaluateConstantExpressionTree r : Int)) % (TWO64 : Int)).toNat) ∧
    (∀ l r : Tree,
      evaluateConstantExpressionTree (.binary .mul l r) =
        (((evaluateConstantExpressionTree l : Int) *
          (evaluateConstantExpressionTree r : Int)) % (TWO64 : Int)).toNat) ∧
    evalString "2 - 3" = 18446744073709551615 := by
  have hconc : evalString "2 - 3" = 18446744073709551615 := by
    have h := evalStringS_render (AddE.two .minus (.one (.num ['2']))
      (.one (.num ['3']))) (by decide)
    rw [show ("2 - 3" : String) = String.mk (renderAS
      (AddE.two .minus (.one (.num ['2'])) (.one (.num ['3'])))) from rfl, h]
    decide
  refine ⟨?_, ?_, ?_, hconc⟩
  · intro l r
    have ha := eval_lt l
    have hb := eval_lt r
    simp only [evaluateConstantExpressionTree]
    simp only [TWO64] at ha hb ⊢
    omega
  · intro l r
    have ha := eval_lt l
    have hb := eval_lt r
    simp only [evaluateConstantExpressionTree]
    simp only [TWO64] at ha hb ⊢
    omega
  · intro l r
    simp only [evaluateConstantExpressionTree]
    rw [show ((evaluateConstantExpressionTree l : Int) *
        (evaluateConstantExpressionTree r : Int)) =
        ((evaluateConstantExpressionTree l *
          evaluateConstantExpressionTree r : Nat) : Int) by push_cast; ring]
    generalize evaluateConstantExpressionTree l *
      evaluateConstantExpressionTree r = c
    simp only [TWO64]
    omega

set_option maxHeartbeats 2000000 in
/-- C10: `peekToken` returns a token of the same NULL kind for end of
input, for a non-printable current character, and for an unrecognized
character, so the parser cannot distinguish end of input from a lexical
error; consequently the pipeline on "4 $ 5" parses only the literal 4 and
evaluates to 4. -/
theorem claim10_null_token_conflation :
    (peekToken ⟨[], 0, 0⟩).1.type = TokenType.null ∧
    (peekToken ⟨[Char.ofNat 1], 0, 0⟩).1.type = TokenType.null ∧
    (peekToken ⟨['$'], 0, 0⟩).1.type = TokenType.null ∧
    parseExpressionTop "4 $ 5" = Tree.literal ⟨"4", .integer⟩ ∧
    evalString "4 $ 5" = 4 := by
  refine ⟨by decide, by decide, by decide, by decide, by decide⟩


end Expressions
